import Mathlib

/-!
Verification of the image-selection and session-state subsystem of the
image_voting_system repository, embedded shallowly from
`src/core/image_selection.py`.

The Python engine keeps six FIFO queues (`collections.deque`), each holding an
independently shuffled copy of every catalog image; per-user `SessionState`
objects record seen poem titles, seen image paths, and pending assignments; a
`ratings` dict records per-image rating counts.  Python dicts are modelled as
association lists (insertion-ordered, unique keys as an invariant), sets as
lists up to membership, `datetime` timestamps as natural numbers, and
`random.shuffle` as an arbitrary permutation supplied by the caller of the
initializer.
-/

set_option autoImplicit false

namespace ImageVoting

/-- `ImageRecord` from `src/core/image_selection.py`: an image path together
with its owning poem title. -/
structure ImageRecord where
  path : String
  poem_title : String
deriving DecidableEq

/-- Association-list lookup, first match wins (Python dict access). -/
def lookupA {α : Type} : List (String × α) → String → Option α
  | [], _ => none
  | (k', v) :: rest, k => if k' = k then some v else lookupA rest k

/-- Association-list update: replace the first binding of the key, or append a
new binding at the end (Python dict assignment, insertion-ordered). -/
def updateA {α : Type} : List (String × α) → String → α → List (String × α)
  | [], k, v => [(k, v)]
  | (k', v') :: rest, k, v =>
      if k' = k then (k, v) :: rest else (k', v') :: updateA rest k v

/-- Association-list deletion (Python `del d[k]` / absent-key no-op). -/
def removeA {α : Type} (l : List (String × α)) (k : String) : List (String × α) :=
  l.filter (fun e => e.1 ≠ k)

/-- Set insertion (Python `set.add`), modelling a set as a list up to
membership. -/
def setAdd (l : List String) (x : String) : List String :=
  if x ∈ l then l else x :: l

/-- Set removal (Python `set.discard`). -/
def setRemove (l : List String) (x : String) : List String :=
  l.filter (fun y => y ≠ x)

/-- `SessionState` from `src/core/image_selection.py`: seen poem titles, seen
image paths, and the pending map `path ↦ (record, queue_num, assigned_time)`. -/
structure SessionState where
  seen_titles : List String
  seen_paths : List String
  pending_images : List (String × ImageRecord × Nat × Nat)
deriving DecidableEq

/-- A freshly created session (`SessionState.__init__`). -/
def emptySession : SessionState :=
  { seen_titles := [], seen_paths := [], pending_images := [] }

/-- `SessionState.add_seen`: mark title and path seen, drop the pending entry. -/
def add_seen (s : SessionState) (image : ImageRecord) : SessionState :=
  { s with
    seen_titles := setAdd s.seen_titles image.poem_title
    seen_paths := setAdd s.seen_paths image.path
    pending_images := removeA s.pending_images image.path }

/-- `SessionState.mark_checked`: mark the image path checked (Scenario B). -/
def mark_checked (s : SessionState) (image : ImageRecord) : SessionState :=
  { s with seen_paths := setAdd s.seen_paths image.path }

/-- `SessionState.add_pending`: record an assigned-but-unrated image. -/
def add_pending (s : SessionState) (image : ImageRecord) (queue_num now : Nat) :
    SessionState :=
  { s with pending_images := updateA s.pending_images image.path (image, queue_num, now) }

/-- `ImageSelectionSystem` state: the six queues (deques as lists, head =
front), the per-user sessions dict, the rating-count ledger, and the loaded
image list. -/
structure ImageSelectionSystem where
  queues : List (List ImageRecord)
  sessions : List (String × SessionState)
  ratings : List (String × Nat)
  all_images : List ImageRecord
deriving DecidableEq

/-- `get_session_state` as a read: the stored session, or a fresh one.  (The
Python method also stores the fresh session; every modelled operation writes
the session back, which gives the same observable dict contents.) -/
def get_session_state (s : ImageSelectionSystem) (session_id : String) : SessionState :=
  (lookupA s.sessions session_id).getD emptySession

/-- The inner pop loop of `get_next_image` on one queue.  `fuel` is
`max_attempts = len(queue)`; each recursive step is one `popleft` (one
attempt).  Returns the session after Scenario A/B updates, the queue after the
loop, the assigned image (Scenario A) if any, and the number of pop attempts. -/
def scanQueue (queue_num now : Nat) :
    Nat → SessionState → List ImageRecord →
    SessionState × List ImageRecord × Option ImageRecord × Nat
  | 0, session, q => (session, q, none, 0)
  | _ + 1, session, [] => (session, [], none, 0)
  | fuel + 1, session, image :: rest =>
      if image.poem_title ∈ session.seen_titles then
        if image.path ∈ session.seen_paths then
          -- Scenario C: hard conflict; push back to the front and break
          (session, image :: rest, none, 1)
        else
          -- Scenario B: soft conflict; mark checked, recycle to the back
          let r := scanQueue queue_num now fuel (mark_checked session image) (rest ++ [image])
          (r.1, r.2.1, r.2.2.1, r.2.2.2 + 1)
      else
        -- Scenario A: success; record as pending
        (add_pending session image queue_num now, rest, some image, 1)

/-- The outer loop of `get_next_image`: try queue `k+1`, then the rest.
Mutations made while scanning a queue (recycled entries, checked paths)
persist even when the scan fails and the next queue is tried. -/
def getNextImageAux (now : Nat) :
    Nat → SessionState → List (List ImageRecord) →
    SessionState × List (List ImageRecord) × Option (ImageRecord × Nat) × Nat
  | _, session, [] => (session, [], none, 0)
  | k, session, q :: qs =>
      if q = [] then
        let r := getNextImageAux now (k + 1) session qs
        (r.1, q :: r.2.1, r.2.2.1, r.2.2.2)
      else
        match scanQueue (k + 1) now q.length session q with
        | (session', q', some image, n) => (session', q' :: qs, some (image, k + 1), n)
        | (session', q', none, n) =>
            let r := getNextImageAux now (k + 1) session' qs
            (r.1, q' :: r.2.1, r.2.2.1, r.2.2.2 + n)

/-- `ImageSelectionSystem.get_next_image`: returns the updated system state and
`some (image, queue_number)` on success, `none` when every queue is exhausted
or conflicted.  `now` models `datetime.now()` for the pending timestamp. -/
def get_next_image (s : ImageSelectionSystem) (session_id : String) (now : Nat) :
    ImageSelectionSystem × Option (ImageRecord × Nat) :=
  let r := getNextImageAux now 0 (get_session_state s session_id) s.queues
  ({ s with queues := r.2.1, sessions := updateA s.sessions session_id r.1 }, r.2.2.1)

/-- The number of pop attempts a `get_next_image` call makes. -/
def assignPops (s : ImageSelectionSystem) (session_id : String) (now : Nat) : Nat :=
  (getNextImageAux now 0 (get_session_state s session_id) s.queues).2.2.2

/-- `ImageSelectionSystem.submit_rating`: mark the image seen for the session
and bump the global rating count (creating the ledger entry at 1 if absent).
No pending-membership check is performed. -/
def submit_rating (s : ImageSelectionSystem) (session_id image_path poem_title : String) :
    ImageSelectionSystem :=
  let session := add_seen (get_session_state s session_id) ⟨image_path, poem_title⟩
  let ratings' :=
    match lookupA s.ratings image_path with
    | some n => updateA s.ratings image_path (n + 1)
    | none => updateA s.ratings image_path 1
  { s with sessions := updateA s.sessions session_id session, ratings := ratings' }

/-- In-place update of the `i`-th element of a list (no-op out of range). -/
def modifyIdx {α : Type} : List α → Nat → (α → α) → List α
  | [], _, _ => []
  | x :: xs, 0, f => f x :: xs
  | x :: xs, i + 1, f => x :: modifyIdx xs i f

/-- One timed-out entry `(path, title, queue_num)` is reclaimed: it is removed
from the session's pending map, its path is discarded from `seen_paths`, and a
rebuilt `ImageRecord` is pushed to the head of its original queue (the inlined
loop body of `check_timeouts`). -/
def reclaimOne (acc : List (List ImageRecord) × SessionState)
    (e : String × String × Nat) : List (List ImageRecord) × SessionState :=
  let sess :=
    { acc.2 with
      pending_images := removeA acc.2.pending_images e.1
      seen_paths := setRemove acc.2.seen_paths e.1 }
  (modifyIdx acc.1 (e.2.2 - 1) (fun q => ⟨e.1, e.2.1⟩ :: q), sess)

/-- The `timed_out` list collected by `check_timeouts` for one session:
`(image_path, poem_title, queue_num)` for every pending entry assigned more
than `timeout` ago. -/
def timedOutList (session : SessionState) (timeout now : Nat) :
    List (String × String × Nat) :=
  (session.pending_images.filter (fun e => timeout < now - e.2.2.2)).map
    (fun e => (e.1, e.2.1.poem_title, e.2.2.1))

/-- Reclaim every timed-out pending entry of one session. -/
def reclaimSession (qs : List (List ImageRecord)) (session : SessionState)
    (timeout now : Nat) : List (List ImageRecord) × SessionState :=
  (timedOutList session timeout now).foldl reclaimOne (qs, session)

/-- One step of the session loop of `check_timeouts`: reclaim one session's
timed-out entries, thread the queues, and append the updated session. -/
def ctStep (timeout now : Nat)
    (acc : List (List ImageRecord) × List (String × SessionState))
    (e : String × SessionState) :
    List (List ImageRecord) × List (String × SessionState) :=
  let r2 := reclaimSession acc.1 e.2 timeout now
  (r2.1, acc.2 ++ [(e.1, r2.2)])

/-- `ImageSelectionSystem.check_timeouts`: reclaim timed-out pending entries of
every session, returning each to the head of its original queue.  `timeout`
and `now` model `timedelta(minutes=timeout_minutes)` and `datetime.now()`. -/
def check_timeouts (s : ImageSelectionSystem) (timeout now : Nat) : ImageSelectionSystem :=
  let r := s.sessions.foldl (ctStep timeout now)
    (s.queues, ([] : List (String × SessionState)))
  { s with queues := r.1, sessions := r.2 }

/-- `_load_images_from_catalog`: one `ImageRecord` per catalog entry with a
non-empty poem title.  The catalog dict `{path: {"poem_title": …}}` is
modelled as an association list of `(path, poem_title)`. -/
def loadImages (catalog : List (String × String)) : List ImageRecord :=
  catalog.filterMap (fun e => if e.2 = "" then none else some ⟨e.1, e.2⟩)

/-- The rating ledger built by `_load_images_from_catalog`: every loaded image
starts at count 0. -/
def initRatings (catalog : List (String × String)) : List (String × Nat) :=
  (loadImages catalog).map (fun image => (image.path, 0))

/-- `ImageSelectionSystem.__init__` with a catalog: the six queues each hold a
shuffled copy of `all_images`; `qs` supplies the six shuffles (arbitrary
permutations, constrained by hypotheses where a theorem needs them). -/
def mkInitial (catalog : List (String × String)) (qs : List (List ImageRecord)) :
    ImageSelectionSystem :=
  { queues := qs, sessions := [], ratings := initRatings catalog,
    all_images := loadImages catalog }

/-- The engine operations a caller can interleave. -/
inductive Op where
  | assign (session_id : String) (now : Nat)
  | confirm (session_id image_path poem_title : String)
  | reclaim (timeout now : Nat)
deriving DecidableEq

/-- Apply one operation to the engine state. -/
def applyOp (s : ImageSelectionSystem) : Op → ImageSelectionSystem
  | .assign uid now => (get_next_image s uid now).1
  | .confirm uid p t => submit_rating s uid p t
  | .reclaim timeout now => check_timeouts s timeout now

/-- Run a sequence of operations. -/
def runOps (s : ImageSelectionSystem) (ops : List Op) : ImageSelectionSystem :=
  ops.foldl applyOp s

/-- Whether an operation is a timeout reclamation. -/
def Op.isReclaim : Op → Bool
  | .reclaim _ _ => true
  | _ => false

/-- The rating-ledger count of an image (0 when the image was never rated). -/
def ratingsCount (s : ImageSelectionSystem) (image_path : String) : Nat :=
  (lookupA s.ratings image_path).getD 0

/-- How many entries with the given path one queue holds. -/
def queueCount (q : List ImageRecord) (image_path : String) : Nat :=
  (q.map (fun i => i.path)).count image_path

/-- Total number of entries with the given path across all queues. -/
def totalCopies (s : ImageSelectionSystem) (image_path : String) : Nat :=
  (s.queues.map (fun q => queueCount q image_path)).sum

/-- Indicator: this session is pending on `image_path` from queue `k`. -/
def pendInd (session : SessionState) (image_path : String) (k : Nat) : Nat :=
  match lookupA session.pending_images image_path with
  | some v => if v.2.1 = k then 1 else 0
  | none => 0

/-- How many stored sessions are pending on `image_path` from queue `k`. -/
def pendingCountAt (s : ImageSelectionSystem) (image_path : String) (k : Nat) : Nat :=
  (s.sessions.map (fun e => pendInd e.2 image_path k)).sum

/-- 1 when this `assign` operation, applied to `s`, returns an image with the
given path. -/
def assignedPath (s : ImageSelectionSystem) (op : Op) (image_path : String) : Nat :=
  match op with
  | .assign uid now =>
      match (get_next_image s uid now).2 with
      | some r => if r.1.path = image_path then 1 else 0
      | none => 0
  | _ => 0

/-- How many operations of a run assign an image with the given path. -/
def assignsAlong (s : ImageSelectionSystem) (image_path : String) : List Op → Nat
  | [] => 0
  | op :: rest => assignedPath s op image_path + assignsAlong (applyOp s op) image_path rest

/-- Total number of entries currently in the queue structure. -/
def totalSize (s : ImageSelectionSystem) : Nat :=
  (s.queues.map List.length).sum

/-- `queueCount` as a recursion, for proofs. -/
def queueCountR : List ImageRecord → String → Nat
  | [], _ => 0
  | i :: q, p => (if i.path = p then 1 else 0) + queueCountR q p

theorem queueCount_eq_queueCountR (q : List ImageRecord) (p : String) :
    queueCount q p = queueCountR q p := by
  induction q with
  | nil => rfl
  | cons i q ih =>
      simp only [queueCount, queueCountR, List.map_cons, List.count_cons] at *
      rw [← ih]
      by_cases h : i.path = p <;> simp [h, Nat.add_comm]

theorem queueCountR_append (q₁ q₂ : List ImageRecord) (p : String) :
    queueCountR (q₁ ++ q₂) p = queueCountR q₁ p + queueCountR q₂ p := by
  induction q₁ with
  | nil => simp [queueCountR]
  | cons i q ih => simp [queueCountR, ih, Nat.add_assoc]

theorem queueCountR_perm {q₁ q₂ : List ImageRecord} (h : q₁.Perm q₂) (p : String) :
    queueCountR q₁ p = queueCountR q₂ p := by
  induction h with
  | nil => rfl
  | cons x _ ih => simp [queueCountR, ih]
  | swap x y l => simp only [queueCountR]; omega
  | trans _ _ ih₁ ih₂ => omega

theorem queueCountR_eq_zero {q : List ImageRecord} {p : String}
    (h : p ∉ q.map (fun i => i.path)) : queueCountR q p = 0 := by
  induction q with
  | nil => rfl
  | cons i q ih =>
      simp only [List.map_cons, List.mem_cons] at h
      push_neg at h
      simp [queueCountR, ih h.2, Ne.symm h.1]

theorem queueCountR_le_one {q : List ImageRecord} {p : String}
    (h : (q.map (fun i => i.path)).Nodup) : queueCountR q p ≤ 1 := by
  induction q with
  | nil => simp [queueCountR]
  | cons i q ih =>
      simp only [List.map_cons, List.nodup_cons] at h
      by_cases hp : i.path = p
      · subst hp
        simp [queueCountR, queueCountR_eq_zero h.1]
      · simp [queueCountR, hp]
        exact ih h.2

theorem queueCountR_eq_one {q : List ImageRecord} {p : String}
    (h : (q.map (fun i => i.path)).Nodup) (hm : p ∈ q.map (fun i => i.path)) :
    queueCountR q p = 1 := by
  induction q with
  | nil => simp at hm
  | cons i q ih =>
      simp only [List.map_cons, List.nodup_cons] at h
      simp only [List.map_cons, List.mem_cons] at hm
      rcases hm with hm | hm
      · simp [queueCountR, hm.symm, queueCountR_eq_zero (hm ▸ h.1)]
      · have : i.path ≠ p := fun hc => h.1 (hc ▸ hm)
        simp [queueCountR, this, ih h.2 hm]

theorem lookupA_cons {α : Type} (e : String × α) (l : List (String × α)) (k : String) :
    lookupA (e :: l) k = if e.1 = k then some e.2 else lookupA l k := by
  cases e
  rfl

theorem updateA_cons {α : Type} (e : String × α) (l : List (String × α)) (k : String)
    (v : α) :
    updateA (e :: l) k v = if e.1 = k then (k, v) :: l else e :: updateA l k v := by
  cases e
  rfl

theorem removeA_cons {α : Type} (e : String × α) (l : List (String × α)) (k : String) :
    removeA (e :: l) k = if e.1 = k then removeA l k else e :: removeA l k := by
  by_cases h : e.1 = k <;> simp [removeA, List.filter_cons, h]

theorem lookupA_updateA_self {α : Type} (l : List (String × α)) (k : String) (v : α) :
    lookupA (updateA l k v) k = some v := by
  induction l with
  | nil => simp [updateA, lookupA]
  | cons e l ih =>
      by_cases h : e.1 = k <;> simp [updateA_cons, lookupA_cons, h, ih, lookupA]

theorem lookupA_updateA_ne {α : Type} (l : List (String × α)) (k k' : String) (v : α)
    (h : k' ≠ k) : lookupA (updateA l k v) k' = lookupA l k' := by
  induction l with
  | nil => simp [updateA, lookupA, h.symm]
  | cons e l ih =>
      by_cases he : e.1 = k
      · simp [updateA_cons, lookupA_cons, he, h.symm]
      · simp [updateA_cons, lookupA_cons, he, ih]

theorem lookupA_removeA_self {α : Type} (l : List (String × α)) (k : String) :
    lookupA (removeA l k) k = none := by
  induction l with
  | nil => simp [removeA, lookupA]
  | cons e l ih =>
      by_cases h : e.1 = k <;> simp [removeA_cons, lookupA_cons, h, ih]

theorem lookupA_removeA_ne {α : Type} (l : List (String × α)) (k k' : String)
    (h : k' ≠ k) : lookupA (removeA l k) k' = lookupA l k' := by
  induction l with
  | nil => simp [removeA, lookupA]
  | cons e l ih =>
      by_cases he : e.1 = k
      · simp [removeA_cons, lookupA_cons, he, Ne.symm h, ih]
      · simp [removeA_cons, lookupA_cons, he, ih]

theorem mem_updateA {α : Type} {l : List (String × α)} {k : String} {v : α}
    {e : String × α} (h : e ∈ updateA l k v) : e ∈ l ∨ e = (k, v) := by
  induction l with
  | nil => simp [updateA] at h; simp [h]
  | cons e' l ih =>
      by_cases he : e'.1 = k
      · rw [updateA_cons, if_pos he] at h
        rcases List.mem_cons.1 h with h | h
        · right; exact h
        · left; exact List.mem_cons_of_mem _ h
      · rw [updateA_cons, if_neg he] at h
        rcases List.mem_cons.1 h with h | h
        · left; simp [h]
        · rcases ih h with h' | h'
          · left; exact List.mem_cons_of_mem _ h'
          · right; exact h'

theorem mem_removeA {α : Type} {l : List (String × α)} {k : String}
    {e : String × α} (h : e ∈ removeA l k) : e ∈ l :=
  List.mem_of_mem_filter h

theorem keys_nodup_updateA {α : Type} {l : List (String × α)} (k : String) (v : α)
    (h : (l.map Prod.fst).Nodup) : ((updateA l k v).map Prod.fst).Nodup := by
  induction l with
  | nil => simp [updateA]
  | cons e l ih =>
      simp only [List.map_cons, List.nodup_cons] at h
      by_cases he : e.1 = k
      · subst he
        simpa [updateA] using h
      · simp only [updateA, he, if_false, List.map_cons, List.nodup_cons]
        refine ⟨fun hc => ?_, ih h.2⟩
        rcases List.mem_map.1 hc with ⟨e', he', hfst⟩
        rcases mem_updateA he' with h' | h'
        · exact h.1 (hfst ▸ List.mem_map_of_mem Prod.fst h')
        · exact he (by rw [h'] at hfst; exact hfst ▸ rfl)

theorem keys_nodup_removeA {α : Type} {l : List (String × α)} (k : String)
    (h : (l.map Prod.fst).Nodup) : ((removeA l k).map Prod.fst).Nodup :=
  ((List.filter_sublist l).map Prod.fst).nodup h

theorem lookupA_mem {α : Type} {l : List (String × α)} {k : String} {v : α}
    (h : lookupA l k = some v) : (k, v) ∈ l := by
  induction l with
  | nil => simp [lookupA] at h
  | cons e l ih =>
      obtain ⟨k₀, v₀⟩ := e
      by_cases he : k₀ = k
      · subst he
        simp [lookupA] at h
        subst h
        exact List.mem_cons_self _ _
      · simp [lookupA, he] at h
        exact List.mem_cons_of_mem _ (ih h)

theorem mem_lookupA {α : Type} {l : List (String × α)} {k : String} {v : α}
    (hn : (l.map Prod.fst).Nodup) (h : (k, v) ∈ l) : lookupA l k = some v := by
  induction l with
  | nil => simp at h
  | cons e l ih =>
      simp only [List.map_cons, List.nodup_cons] at hn
      rcases List.mem_cons.1 h with h' | h'
      · rw [← h']
        simp [lookupA]
      · have : e.1 ≠ k := by
          intro hc
          exact hn.1 (hc ▸ List.mem_map_of_mem Prod.fst h')
        simp [lookupA, this, ih hn.2 h']

theorem sum_map_updateA {α : Type} (l : List (String × α)) (k : String) (v : α)
    (f : α → Nat) :
    ((updateA l k v).map (fun e => f e.2)).sum +
      (match lookupA l k with | some w => f w | none => 0) =
    (l.map (fun e => f e.2)).sum + f v := by
  induction l with
  | nil => simp [updateA, lookupA]
  | cons e l ih =>
      by_cases he : e.1 = k
      · simp [updateA, lookupA, he]
        omega
      · simp only [updateA, he, if_false, List.map_cons, List.sum_cons, lookupA]
        omega

theorem length_modifyIdx {α : Type} (l : List α) (i : Nat) (f : α → α) :
    (modifyIdx l i f).length = l.length := by
  induction l generalizing i with
  | nil => rfl
  | cons x xs ih =>
      cases i with
      | zero => rfl
      | succ i => simp [modifyIdx, ih]

theorem getD_modifyIdx_self {α : Type} (l : List α) (i : Nat) (f : α → α) (d : α)
    (h : i < l.length) : (modifyIdx l i f).getD i d = f (l.getD i d) := by
  induction l generalizing i with
  | nil => simp at h
  | cons x xs ih =>
      cases i with
      | zero => rfl
      | succ i => simpa [modifyIdx] using ih i (by simpa using h)

theorem getD_modifyIdx_ne {α : Type} (l : List α) (i j : Nat) (f : α → α) (d : α)
    (h : i ≠ j) : (modifyIdx l i f).getD j d = l.getD j d := by
  induction l generalizing i j with
  | nil => rfl
  | cons x xs ih =>
      cases i with
      | zero =>
          cases j with
          | zero => exact absurd rfl h
          | succ j => rfl
      | succ i =>
          cases j with
          | zero => rfl
          | succ j => simpa [modifyIdx] using ih i j (fun hc => h (hc ▸ rfl))

/-- Count contributed by an optional returned image. -/
def optCount (o : Option ImageRecord) (p : String) : Nat :=
  match o with
  | some image => if image.path = p then 1 else 0
  | none => 0

/-- Count contributed by an optional `(image, queue_number)` result. -/
def optCountA (o : Option (ImageRecord × Nat)) (p : String) : Nat :=
  match o with
  | some r => if r.1.path = p then 1 else 0
  | none => 0

/-- Count contributed by an optional result, at one queue number. -/
def resAt (o : Option (ImageRecord × Nat)) (k : Nat) (p : String) : Nat :=
  match o with
  | some r => if r.2 = k ∧ r.1.path = p then 1 else 0
  | none => 0

theorem scanQueue_count (qnum now : Nat) (p : String) :
    ∀ (fuel : Nat) (sess : SessionState) (q : List ImageRecord),
      queueCountR (scanQueue qnum now fuel sess q).2.1 p +
        optCount (scanQueue qnum now fuel sess q).2.2.1 p = queueCountR q p := by
  intro fuel
  induction fuel with
  | zero => intro sess q; simp [scanQueue, optCount]
  | succ fuel ih =>
      intro sess q
      cases q with
      | nil => simp [scanQueue, optCount]
      | cons image rest =>
          by_cases h1 : image.poem_title ∈ sess.seen_titles
          · by_cases h2 : image.path ∈ sess.seen_paths
            · simp [scanQueue, h1, h2, optCount]
            · have h := ih (mark_checked sess image) (rest ++ [image])
              rw [queueCountR_append] at h
              simp only [scanQueue, if_pos h1, if_neg h2, queueCountR] at h ⊢
              omega
          · simp only [scanQueue, if_neg h1, optCount, queueCountR]
            omega

theorem scanQueue_pending (qnum now : Nat) :
    ∀ (fuel : Nat) (sess : SessionState) (q : List ImageRecord),
      (scanQueue qnum now fuel sess q).1.pending_images =
        (match (scanQueue qnum now fuel sess q).2.2.1 with
         | some image => updateA sess.pending_images image.path (image, qnum, now)
         | none => sess.pending_images) := by
  intro fuel
  induction fuel with
  | zero => intro sess q; simp [scanQueue]
  | succ fuel ih =>
      intro sess q
      cases q with
      | nil => simp [scanQueue]
      | cons image rest =>
          by_cases h1 : image.poem_title ∈ sess.seen_titles
          · by_cases h2 : image.path ∈ sess.seen_paths
            · simp [scanQueue, h1, h2]
            · have h := ih (mark_checked sess image) (rest ++ [image])
              simp only [scanQueue, if_pos h1, if_neg h2]
              simpa [mark_checked] using h
          · simp [scanQueue, h1, add_pending]

theorem scanQueue_titles (qnum now : Nat) :
    ∀ (fuel : Nat) (sess : SessionState) (q : List ImageRecord),
      (scanQueue qnum now fuel sess q).1.seen_titles = sess.seen_titles := by
  intro fuel
  induction fuel with
  | zero => intro sess q; simp [scanQueue]
  | succ fuel ih =>
      intro sess q
      cases q with
      | nil => simp [scanQueue]
      | cons image rest =>
          by_cases h1 : image.poem_title ∈ sess.seen_titles
          · by_cases h2 : image.path ∈ sess.seen_paths
            · simp [scanQueue, h1, h2]
            · simp only [scanQueue, if_pos h1, if_neg h2]
              simpa [mark_checked] using ih (mark_checked sess image) (rest ++ [image])
          · simp [scanQueue, h1, add_pending]

theorem scanQueue_success_unseen (qnum now : Nat) :
    ∀ (fuel : Nat) (sess : SessionState) (q : List ImageRecord) (image : ImageRecord),
      (scanQueue qnum now fuel sess q).2.2.1 = some image →
        image.poem_title ∉ sess.seen_titles := by
  intro fuel
  induction fuel with
  | zero => intro sess q image h; simp [scanQueue] at h
  | succ fuel ih =>
      intro sess q image h
      cases q with
      | nil => simp [scanQueue] at h
      | cons image' rest =>
          by_cases h1 : image'.poem_title ∈ sess.seen_titles
          · by_cases h2 : image'.path ∈ sess.seen_paths
            · simp [scanQueue, h1, h2] at h
            · simp only [scanQueue, if_pos h1, if_neg h2] at h
              have := ih (mark_checked sess image') (rest ++ [image']) image h
              simpa [mark_checked] using this
          · simp [scanQueue, h1] at h
            exact h ▸ h1

theorem scanQueue_pops_le (qnum now : Nat) :
    ∀ (fuel : Nat) (sess : SessionState) (q : List ImageRecord),
      (scanQueue qnum now fuel sess q).2.2.2 ≤ fuel := by
  intro fuel
  induction fuel with
  | zero => intro sess q; simp [scanQueue]
  | succ fuel ih =>
      intro sess q
      cases q with
      | nil => simp [scanQueue]
      | cons image rest =>
          by_cases h1 : image.poem_title ∈ sess.seen_titles
          · by_cases h2 : image.path ∈ sess.seen_paths
            · simp [scanQueue, h1, h2]
            · simp only [scanQueue, if_pos h1, if_neg h2]
              have := ih (mark_checked sess image) (rest ++ [image])
              omega
          · simp [scanQueue, h1]

theorem scanQueue_all_seen (qnum now : Nat) :
    ∀ (fuel : Nat) (sess : SessionState) (q : List ImageRecord),
      (∀ i ∈ q, i.poem_title ∈ sess.seen_titles) →
      (scanQueue qnum now fuel sess q).2.2.1 = none := by
  intro fuel
  induction fuel with
  | zero => intro sess q _; simp [scanQueue]
  | succ fuel ih =>
      intro sess q hq
      cases q with
      | nil => simp [scanQueue]
      | cons image rest =>
          have h1 : image.poem_title ∈ sess.seen_titles :=
            hq image (List.mem_cons_self _ _)
          by_cases h2 : image.path ∈ sess.seen_paths
          · simp [scanQueue, h1, h2]
          · simp only [scanQueue, if_pos h1, if_neg h2]
            refine ih (mark_checked sess image) (rest ++ [image]) ?_
            intro i hi
            simp only [mark_checked]
            rcases List.mem_append.1 hi with hi | hi
            · exact hq i (List.mem_cons_of_mem _ hi)
            · simp at hi
              exact hi ▸ h1

/-- Sum of `queueCountR` over a list of queues. -/
def sumCountR (qs : List (List ImageRecord)) (p : String) : Nat :=
  (qs.map (fun q => queueCountR q p)).sum

theorem aux_titles (now : Nat) :
    ∀ (qs : List (List ImageRecord)) (k : Nat) (sess : SessionState),
      (getNextImageAux now k sess qs).1.seen_titles = sess.seen_titles := by
  intro qs
  induction qs with
  | nil => intro k sess; simp [getNextImageAux]
  | cons q qs ih =>
      intro k sess
      by_cases hq : q = []
      · simp [getNextImageAux, hq, ih]
      · have hti := scanQueue_titles (k + 1) now q.length sess q
        rcases hsc : scanQueue (k + 1) now q.length sess q with ⟨sess', q', o, n⟩
        rw [hsc] at hti
        cases o with
        | some image =>
            simp only [getNextImageAux, if_neg hq]
            rw [hsc]
            exact hti
        | none =>
            simp only [getNextImageAux, if_neg hq]
            rw [hsc]
            simpa [ih] using hti

theorem aux_len (now : Nat) :
    ∀ (qs : List (List ImageRecord)) (k : Nat) (sess : SessionState),
      (getNextImageAux now k sess qs).2.1.length = qs.length := by
  intro qs
  induction qs with
  | nil => intro k sess; simp [getNextImageAux]
  | cons q qs ih =>
      intro k sess
      by_cases hq : q = []
      · simp [getNextImageAux, hq, ih]
      · rcases hsc : scanQueue (k + 1) now q.length sess q with ⟨sess', q', o, n⟩
        cases o with
        | some image =>
            simp only [getNextImageAux, if_neg hq]
            rw [hsc]
            simp
        | none =>
            simp only [getNextImageAux, if_neg hq]
            rw [hsc]
            simp [ih]

theorem aux_range (now : Nat) :
    ∀ (qs : List (List ImageRecord)) (k : Nat) (sess : SessionState)
      (r : ImageRecord × Nat),
      (getNextImageAux now k sess qs).2.2.1 = some r →
        k + 1 ≤ r.2 ∧ r.2 ≤ k + qs.length := by
  intro qs
  induction qs with
  | nil => intro k sess r h; simp [getNextImageAux] at h
  | cons q qs ih =>
      intro k sess r h
      by_cases hq : q = []
      · simp only [getNextImageAux, if_pos hq] at h
        have := ih (k + 1) sess r h
        simp only [List.length_cons]
        omega
      · rcases hsc : scanQueue (k + 1) now q.length sess q with ⟨sess', q', o, n⟩
        cases o with
        | some image =>
            simp only [getNextImageAux, if_neg hq] at h
            rw [hsc] at h
            simp at h
            subst h
            constructor
            · exact Nat.le_refl _
            · show k + 1 ≤ k + (q :: qs).length
              simp only [List.length_cons]
              omega
        | none =>
            simp only [getNextImageAux, if_neg hq] at h
            rw [hsc] at h
            simp at h
            have := ih (k + 1) sess' r h
            simp only [List.length_cons]
            omega

theorem aux_pending (now : Nat) :
    ∀ (qs : List (List ImageRecord)) (k : Nat) (sess : SessionState),
      (getNextImageAux now k sess qs).1.pending_images =
        (match (getNextImageAux now k sess qs).2.2.1 with
         | some r => updateA sess.pending_images r.1.path (r.1, r.2, now)
         | none => sess.pending_images) := by
  intro qs
  induction qs with
  | nil => intro k sess; simp [getNextImageAux]
  | cons q qs ih =>
      intro k sess
      by_cases hq : q = []
      · simp [getNextImageAux, hq, ih]
      · have hpe := scanQueue_pending (k + 1) now q.length sess q
        rcases hsc : scanQueue (k + 1) now q.length sess q with ⟨sess', q', o, n⟩
        rw [hsc] at hpe
        cases o with
        | some image =>
            simp only [getNextImageAux, if_neg hq]
            rw [hsc]
            simp only at hpe
            exact hpe
        | none =>
            simp only [getNextImageAux, if_neg hq]
            rw [hsc]
            simp only at hpe
            rw [ih (k + 1) sess', hpe]

theorem aux_success_unseen (now : Nat) :
    ∀ (qs : List (List ImageRecord)) (k : Nat) (sess : SessionState)
      (r : ImageRecord × Nat),
      (getNextImageAux now k sess qs).2.2.1 = some r →
        r.1.poem_title ∉ sess.seen_titles := by
  intro qs
  induction qs with
  | nil => intro k sess r h; simp [getNextImageAux] at h
  | cons q qs ih =>
      intro k sess r h
      by_cases hq : q = []
      · simp only [getNextImageAux, if_pos hq] at h
        exact ih (k + 1) sess r h
      · have hti := scanQueue_titles (k + 1) now q.length sess q
        rcases hsc : scanQueue (k + 1) now q.length sess q with ⟨sess', q', o, n⟩
        rw [hsc] at hti
        simp only at hti
        cases o with
        | some image =>
            simp only [getNextImageAux, if_neg hq] at h
            rw [hsc] at h
            simp at h
            have h3 := scanQueue_success_unseen (k + 1) now q.length sess q image
            rw [hsc] at h3
            have h2 := h3 rfl
            subst h
            exact h2
        | none =>
            simp only [getNextImageAux, if_neg hq] at h
            rw [hsc] at h
            simp at h
            have := ih (k + 1) sess' r h
            rw [hti] at this
            exact this

theorem aux_pops (now : Nat) :
    ∀ (qs : List (List ImageRecord)) (k : Nat) (sess : SessionState),
      (getNextImageAux now k sess qs).2.2.2 ≤ (qs.map List.length).sum := by
  intro qs
  induction qs with
  | nil => intro k sess; simp [getNextImageAux]
  | cons q qs ih =>
      intro k sess
      by_cases hq : q = []
      · have := ih (k + 1) sess
        simp only [getNextImageAux, if_pos hq, List.map_cons, List.sum_cons]
        omega
      · have hpo := scanQueue_pops_le (k + 1) now q.length sess q
        rcases hsc : scanQueue (k + 1) now q.length sess q with ⟨sess', q', o, n⟩
        rw [hsc] at hpo
        simp only at hpo
        cases o with
        | some image =>
            simp only [getNextImageAux, if_neg hq]
            rw [hsc]
            simp only [List.map_cons, List.sum_cons]
            omega
        | none =>
            simp only [getNextImageAux, if_neg hq]
            rw [hsc]
            have := ih (k + 1) sess'
            simp only [List.map_cons, List.sum_cons]
            omega

theorem aux_count (now : Nat) (p : String) :
    ∀ (qs : List (List ImageRecord)) (k : Nat) (sess : SessionState),
      sumCountR (getNextImageAux now k sess qs).2.1 p +
        optCountA (getNextImageAux now k sess qs).2.2.1 p = sumCountR qs p := by
  intro qs
  induction qs with
  | nil => intro k sess; simp [getNextImageAux, sumCountR, optCountA]
  | cons q qs ih =>
      intro k sess
      by_cases hq : q = []
      · have := ih (k + 1) sess
        simp only [getNextImageAux, if_pos hq, sumCountR, List.map_cons, List.sum_cons] at this ⊢
        omega
      · have hc := scanQueue_count (k + 1) now p q.length sess q
        rcases hsc : scanQueue (k + 1) now q.length sess q with ⟨sess', q', o, n⟩
        rw [hsc] at hc
        simp only at hc
        cases o with
        | some image =>
            simp only [getNextImageAux, if_neg hq]
            rw [hsc]
            simp only [sumCountR, List.map_cons, List.sum_cons, optCountA, optCount] at hc ⊢
            omega
        | none =>
            simp only [getNextImageAux, if_neg hq]
            rw [hsc]
            have := ih (k + 1) sess'
            simp only [sumCountR, List.map_cons, List.sum_cons, optCountA, optCount] at hc this ⊢
            omega

theorem aux_count_at (now : Nat) (p : String) :
    ∀ (qs : List (List ImageRecord)) (k : Nat) (sess : SessionState) (j : Nat),
      queueCountR ((getNextImageAux now k sess qs).2.1.getD j []) p +
        resAt (getNextImageAux now k sess qs).2.2.1 (k + j + 1) p =
      queueCountR (qs.getD j []) p := by
  intro qs
  induction qs with
  | nil => intro k sess j; simp [getNextImageAux, resAt, queueCountR]
  | cons q qs ih =>
      intro k sess j
      by_cases hq : q = []
      · simp only [getNextImageAux, if_pos hq]
        cases j with
        | zero =>
            simp only [List.getD_cons_zero]
            cases hres : (getNextImageAux now (k + 1) sess qs).2.2.1 with
            | none => simp [resAt]
            | some r =>
                have := aux_range now qs (k + 1) sess r hres
                have hne : r.2 ≠ k + 0 + 1 := by omega
                simp [resAt, hne]
        | succ j' =>
            simp only [List.getD_cons_succ]
            have := ih (k + 1) sess j'
            have harith : k + 1 + j' + 1 = k + (j' + 1) + 1 := by omega
            rw [harith] at this
            exact this
      · rcases hsc : scanQueue (k + 1) now q.length sess q with ⟨sess', q', o, n⟩
        have hc := scanQueue_count (k + 1) now p q.length sess q
        rw [hsc] at hc
        simp only at hc
        cases o with
        | some image =>
            simp only [getNextImageAux, if_neg hq]
            rw [hsc]
            cases j with
            | zero =>
                simp only [List.getD_cons_zero]
                simpa [resAt, optCount] using hc
            | succ j' =>
                simp only [List.getD_cons_succ]
                have hne : k + 1 ≠ k + (j' + 1) + 1 := by omega
                simp [resAt, hne]
        | none =>
            simp only [getNextImageAux, if_neg hq]
            rw [hsc]
            cases j with
            | zero =>
                simp only [List.getD_cons_zero, optCount] at hc ⊢
                cases hres : (getNextImageAux now (k + 1) sess' qs).2.2.1 with
                | none => simpa [resAt] using hc
                | some r =>
                    have := aux_range now qs (k + 1) sess' r hres
                    have hne : r.2 ≠ k + 0 + 1 := by omega
                    simpa [resAt, hne] using hc
            | succ j' =>
                simp only [List.getD_cons_succ]
                have := ih (k + 1) sess' j'
                have harith : k + 1 + j' + 1 = k + (j' + 1) + 1 := by omega
                rw [harith] at this
                exact this

theorem aux_all_seen (now : Nat) :
    ∀ (qs : List (List ImageRecord)) (k : Nat) (sess : SessionState),
      (∀ q ∈ qs, ∀ i ∈ q, i.poem_title ∈ sess.seen_titles) →
      (getNextImageAux now k sess qs).2.2.1 = none := by
  intro qs
  induction qs with
  | nil => intro k sess _; simp [getNextImageAux]
  | cons q qs ih =>
      intro k sess hall
      by_cases hq : q = []
      · simp only [getNextImageAux, if_pos hq]
        exact ih (k + 1) sess (fun q' hq' => hall q' (List.mem_cons_of_mem _ hq'))
      · have hnone := scanQueue_all_seen (k + 1) now q.length sess q
          (hall q (List.mem_cons_self _ _))
        have hti := scanQueue_titles (k + 1) now q.length sess q
        rcases hsc : scanQueue (k + 1) now q.length sess q with ⟨sess', q', o, n⟩
        rw [hsc] at hnone hti
        simp only at hnone hti
        subst hnone
        simp only [getNextImageAux, if_neg hq]
        rw [hsc]
        simp only
        refine ih (k + 1) sess' ?_
        intro q'' hq'' i hi
        rw [hti]
        exact hall q'' (List.mem_cons_of_mem _ hq'') i hi

theorem aux_first (now : Nat) :
    ∀ (qs : List (List ImageRecord)) (k : Nat) (sess : SessionState) (j : Nat)
      (image : ImageRecord),
      (∀ j', j' < j → qs.getD j' [] = []) →
      j < qs.length →
      (qs.getD j []).head? = some image →
      image.poem_title ∉ sess.seen_titles →
      (getNextImageAux now k sess qs).2.2.1 = some (image, k + j + 1) := by
  intro qs
  induction qs with
  | nil => intro k sess j image _ hj _ _; simp at hj
  | cons q qs ih =>
      intro k sess j image hempty hj hhead hunseen
      cases j with
      | zero =>
          simp only [List.getD_cons_zero] at hhead
          cases q with
          | nil => simp at hhead
          | cons i rest =>
              simp only [List.head?_cons, Option.some.injEq] at hhead
              subst hhead
              have hq : (i :: rest : List ImageRecord) ≠ [] := by simp
              simp only [getNextImageAux, if_neg hq]
              have hscan : scanQueue (k + 1) now (i :: rest).length sess (i :: rest) =
                  (add_pending sess i (k + 1) now, rest, some i, 1) := by
                simp [scanQueue, hunseen, List.length_cons]
              rw [hscan]
      | succ j' =>
          have hq : q = [] := hempty 0 (Nat.succ_pos _)
          simp only [getNextImageAux, if_pos hq]
          have harith : k + (j' + 1) + 1 = (k + 1) + j' + 1 := by omega
          rw [harith]
          refine ih (k + 1) sess j' image ?_ ?_ ?_ hunseen
          · intro j'' hj''
            have := hempty (j'' + 1) (by omega)
            simpa using this
          · simpa using hj
          · simpa using hhead

theorem get_next_image_ratings (s : ImageSelectionSystem) (uid : String) (now : Nat) :
    (get_next_image s uid now).1.ratings = s.ratings := rfl

theorem get_next_image_all_images (s : ImageSelectionSystem) (uid : String) (now : Nat) :
    (get_next_image s uid now).1.all_images = s.all_images := rfl

theorem check_timeouts_ratings (s : ImageSelectionSystem) (timeout now : Nat) :
    (check_timeouts s timeout now).ratings = s.ratings := rfl

theorem submit_rating_queues (s : ImageSelectionSystem) (uid p t : String) :
    (submit_rating s uid p t).queues = s.queues := rfl

theorem submit_rating_sessions (s : ImageSelectionSystem) (uid p t : String) :
    (submit_rating s uid p t).sessions =
      updateA s.sessions uid (add_seen (get_session_state s uid) ⟨p, t⟩) := rfl

theorem submit_rating_count (s : ImageSelectionSystem) (uid p t p' : String) :
    ratingsCount (submit_rating s uid p t) p' =
      if p' = p then ratingsCount s p' + 1 else ratingsCount s p' := by
  by_cases h : p' = p
  · subst h
    simp only [submit_rating, ratingsCount]
    cases hl : lookupA s.ratings p' with
    | some n => simp [hl, lookupA_updateA_self]
    | none => simp [hl, lookupA_updateA_self]
  · simp only [submit_rating, ratingsCount, if_neg h]
    cases hl : lookupA s.ratings p with
    | some n => simp [hl, lookupA_updateA_ne _ _ _ _ h]
    | none => simp [hl, lookupA_updateA_ne _ _ _ _ h]

/-- The session component of the inlined reclaim step. -/
def sStep (ss : SessionState) (e : String × String × Nat) : SessionState :=
  { ss with
    pending_images := removeA ss.pending_images e.1
    seen_paths := setRemove ss.seen_paths e.1 }

/-- The queue component of the inlined reclaim step. -/
def qStep (qs : List (List ImageRecord)) (e : String × String × Nat) :
    List (List ImageRecord) :=
  modifyIdx qs (e.2.2 - 1) (fun q => ⟨e.1, e.2.1⟩ :: q)

theorem reclaimOne_eq (acc : List (List ImageRecord) × SessionState)
    (e : String × String × Nat) : reclaimOne acc e = (qStep acc.1 e, sStep acc.2 e) := rfl

theorem foldl_reclaimOne (es : List (String × String × Nat))
    (qs : List (List ImageRecord)) (ss : SessionState) :
    es.foldl reclaimOne (qs, ss) = (es.foldl qStep qs, es.foldl sStep ss) := by
  induction es generalizing qs ss with
  | nil => rfl
  | cons e es ih => simp [List.foldl_cons, reclaimOne_eq, ih]

/-- The effect of `check_timeouts` on one session, in isolation. -/
def reclaimSess (ss : SessionState) (timeout now : Nat) : SessionState :=
  (timedOutList ss timeout now).foldl sStep ss

theorem reclaimSession_eq (qs : List (List ImageRecord)) (ss : SessionState)
    (timeout now : Nat) :
    reclaimSession qs ss timeout now =
      ((timedOutList ss timeout now).foldl qStep qs, reclaimSess ss timeout now) := by
  simp [reclaimSession, foldl_reclaimOne, reclaimSess]

theorem ct_fold (timeout now : Nat) :
    ∀ (l : List (String × SessionState)) (qs : List (List ImageRecord))
      (done : List (String × SessionState)),
      l.foldl (ctStep timeout now) (qs, done) =
        ((l.map (fun e => timedOutList e.2 timeout now)).flatten.foldl qStep qs,
          done ++ l.map (fun e => (e.1, reclaimSess e.2 timeout now))) := by
  intro l
  induction l with
  | nil => intro qs done; simp
  | cons e l ih =>
      intro qs done
      simp only [List.foldl_cons, List.map_cons, List.flatten, List.foldl_append]
      rw [show ctStep timeout now (qs, done) e =
            ((timedOutList e.2 timeout now).foldl qStep qs,
              done ++ [(e.1, reclaimSess e.2 timeout now)]) from by
            simp [ctStep, reclaimSession_eq]]
      rw [ih]
      simp

theorem check_timeouts_sessions (s : ImageSelectionSystem) (timeout now : Nat) :
    (check_timeouts s timeout now).sessions =
      s.sessions.map (fun e => (e.1, reclaimSess e.2 timeout now)) := by
  simp [check_timeouts, ct_fold]

theorem check_timeouts_queues (s : ImageSelectionSystem) (timeout now : Nat) :
    (check_timeouts s timeout now).queues =
      (s.sessions.map (fun e => timedOutList e.2 timeout now)).flatten.foldl qStep s.queues := by
  simp [check_timeouts, ct_fold]

theorem lookupA_map_val {α β : Type} (l : List (String × α)) (f : α → β) (k : String) :
    lookupA (l.map (fun e => (e.1, f e.2))) k = (lookupA l k).map f := by
  induction l with
  | nil => simp [lookupA]
  | cons e l ih =>
      by_cases h : e.1 = k <;> simp [lookupA_cons, h, ih]

theorem lookup_pending_fold (es : List (String × String × Nat)) (ss : SessionState)
    (p : String) :
    lookupA (es.foldl sStep ss).pending_images p =
      if p ∈ es.map (fun e => e.1) then none else lookupA ss.pending_images p := by
  induction es generalizing ss with
  | nil => simp
  | cons e es ih =>
      simp only [List.foldl_cons, List.map_cons, List.mem_cons]
      rw [ih]
      by_cases hm : p ∈ es.map (fun e => e.1)
      · simp [hm]
      · by_cases hp : p = e.1
        · simp [hm, hp, sStep, lookupA_removeA_self]
        · simp [hm, hp, sStep, lookupA_removeA_ne _ _ _ hp]

theorem seen_paths_fold_subset (es : List (String × String × Nat)) (ss : SessionState)
    (x : String) (h : x ∈ (es.foldl sStep ss).seen_paths) : x ∈ ss.seen_paths := by
  induction es generalizing ss with
  | nil => exact h
  | cons e es ih =>
      have := ih (sStep ss e) h
      simp only [sStep, setRemove] at this
      exact List.mem_of_mem_filter this

theorem seen_paths_fold_removed (es : List (String × String × Nat)) (ss : SessionState)
    (p : String) (h : p ∈ es.map (fun e => e.1)) :
    p ∉ (es.foldl sStep ss).seen_paths := by
  induction es generalizing ss with
  | nil => simp at h
  | cons e es ih =>
      simp only [List.map_cons, List.mem_cons] at h
      by_cases hm : p ∈ es.map (fun e => e.1)
      · exact ih (sStep ss e) hm
      · have hp : p = e.1 := by tauto
        intro hc
        have h2 := seen_paths_fold_subset es (sStep ss e) p hc
        rw [hp] at h2
        simp [sStep, setRemove, List.mem_filter] at h2

theorem pending_fold_subset (es : List (String × String × Nat)) (ss : SessionState)
    (pe : String × ImageRecord × Nat × Nat)
    (h : pe ∈ (es.foldl sStep ss).pending_images) : pe ∈ ss.pending_images := by
  induction es generalizing ss with
  | nil => exact h
  | cons e es ih =>
      have := ih (sStep ss e) h
      simp only [sStep] at this
      exact mem_removeA this

theorem pending_fold_keys_nodup (es : List (String × String × Nat)) (ss : SessionState)
    (h : (ss.pending_images.map Prod.fst).Nodup) :
    ((es.foldl sStep ss).pending_images.map Prod.fst).Nodup := by
  induction es generalizing ss with
  | nil => exact h
  | cons e es ih => exact ih (sStep ss e) (keys_nodup_removeA _ h)

/-- How many reclaimed entries carry the given path and queue number. -/
def countKeyAt : List (String × String × Nat) → String → Nat → Nat
  | [], _, _ => 0
  | e :: es, p, k => (if e.1 = p ∧ e.2.2 = k then 1 else 0) + countKeyAt es p k

theorem countKeyAt_append (l₁ l₂ : List (String × String × Nat)) (p : String) (k : Nat) :
    countKeyAt (l₁ ++ l₂) p k = countKeyAt l₁ p k + countKeyAt l₂ p k := by
  induction l₁ with
  | nil => simp [countKeyAt]
  | cons e l ih => simp [countKeyAt, ih, Nat.add_assoc]

theorem countKeyAt_flatten (L : List (List (String × String × Nat))) (p : String) (k : Nat) :
    countKeyAt L.flatten p k = (L.map (fun es => countKeyAt es p k)).sum := by
  induction L with
  | nil => simp [countKeyAt]
  | cons es L ih => simp [countKeyAt_append, ih]

theorem pendInd_fold (es : List (String × String × Nat)) (ss : SessionState)
    (p : String) (k : Nat)
    (hnd : (es.map (fun e => e.1)).Nodup)
    (hes : ∀ e ∈ es, ∃ rec t0,
      lookupA ss.pending_images e.1 = some (rec, e.2.2, t0)) :
    pendInd (es.foldl sStep ss) p k + countKeyAt es p k = pendInd ss p k := by
  induction es generalizing ss with
  | nil => simp [countKeyAt]
  | cons e es ih =>
      simp only [List.map_cons, List.nodup_cons] at hnd
      have hes_tail : ∀ e' ∈ es, ∃ rec t0,
          lookupA (sStep ss e).pending_images e'.1 = some (rec, e'.2.2, t0) := by
        intro e' he'
        have hne : e'.1 ≠ e.1 := by
          intro hc
          exact hnd.1 (hc ▸ List.mem_map_of_mem (fun x => x.1) he')
        rcases hes e' (List.mem_cons_of_mem _ he') with ⟨rec, t0, hl⟩
        exact ⟨rec, t0, by rw [show (sStep ss e).pending_images =
          removeA ss.pending_images e.1 from rfl, lookupA_removeA_ne _ _ _ hne]; exact hl⟩
      have key : pendInd (sStep ss e) p k + (if e.1 = p ∧ e.2.2 = k then 1 else 0) =
          pendInd ss p k := by
        rcases hes e (List.mem_cons_self _ _) with ⟨rec, t0, hl⟩
        by_cases hp : e.1 = p
        · subst hp
          have h0 : pendInd (sStep ss e) e.1 k = 0 := by
            simp [pendInd, sStep, lookupA_removeA_self]
          rw [h0]
          simp [pendInd, hl]
        · have heq : pendInd (sStep ss e) p k = pendInd ss p k := by
            simp [pendInd, sStep, lookupA_removeA_ne _ _ _ (Ne.symm hp)]
          simp [heq, hp]
      have := ih (sStep ss e) hnd.2 hes_tail
      simp only [List.foldl_cons, countKeyAt]
      omega

theorem queue_fold_count (es : List (String × String × Nat))
    (qs : List (List ImageRecord)) (p : String) (k : Nat)
    (hk : 1 ≤ k) (hlen : k - 1 < qs.length)
    (hes : ∀ e ∈ es, 1 ≤ e.2.2) :
    queueCountR ((es.foldl qStep qs).getD (k - 1) []) p =
      queueCountR (qs.getD (k - 1) []) p + countKeyAt es p k := by
  induction es generalizing qs with
  | nil => simp [countKeyAt]
  | cons e es ih =>
      have hlen' : k - 1 < (qStep qs e).length := by
        simpa [qStep, length_modifyIdx] using hlen
      have hes_tail : ∀ e' ∈ es, 1 ≤ e'.2.2 :=
        fun e' he' => hes e' (List.mem_cons_of_mem _ he')
      have step : queueCountR ((qStep qs e).getD (k - 1) []) p =
          queueCountR (qs.getD (k - 1) []) p + (if e.1 = p ∧ e.2.2 = k then 1 else 0) := by
        have he1 : 1 ≤ e.2.2 := hes e (List.mem_cons_self _ _)
        by_cases hidx : e.2.2 - 1 = k - 1
        · have hek : e.2.2 = k := by omega
          rw [qStep, hidx, getD_modifyIdx_self _ _ _ _ hlen]
          simp only [queueCountR, hek]
          by_cases hp : e.1 = p
          · simp only [hp, if_pos rfl, and_self, if_true]
            omega
          · simp [hp]
        · rw [qStep, getD_modifyIdx_ne _ _ _ _ _ hidx]
          have hek : e.2.2 ≠ k := by omega
          simp [hek]
      have := ih (qStep qs e) hlen' hes_tail
      simp only [List.foldl_cons, countKeyAt] at this ⊢
      omega

theorem timedOutList_shape (ss : SessionState) (timeout now : Nat) :
    ∀ e ∈ timedOutList ss timeout now, ∃ rec t0,
      (e.1, (rec, e.2.2, t0)) ∈ ss.pending_images ∧ timeout < now - t0 := by
  intro e he
  simp only [timedOutList, List.mem_map, List.mem_filter] at he
  rcases he with ⟨pe, ⟨hmem, hcond⟩, heq⟩
  refine ⟨pe.2.1, pe.2.2.2, ?_, by simpa using hcond⟩
  have h1 : e.1 = pe.1 := by rw [← heq]
  have h2 : e.2.2 = pe.2.2.1 := by rw [← heq]
  rw [h1, h2]
  simpa using hmem

theorem timedOutList_keys (ss : SessionState) (timeout now : Nat) :
    (timedOutList ss timeout now).map (fun e => e.1) =
      (ss.pending_images.filter (fun e => timeout < now - e.2.2.2)).map Prod.fst := by
  simp [timedOutList, List.map_map]

theorem timedOutList_keys_nodup (ss : SessionState) (timeout now : Nat)
    (h : (ss.pending_images.map Prod.fst).Nodup) :
    ((timedOutList ss timeout now).map (fun e => e.1)).Nodup := by
  rw [timedOutList_keys]
  exact ((List.filter_sublist ss.pending_images).map Prod.fst).nodup h

theorem queue_fold_mem_mono (es : List (String × String × Nat))
    (qs : List (List ImageRecord)) (j : Nat) (x : ImageRecord)
    (h : x ∈ qs.getD j []) : x ∈ (es.foldl qStep qs).getD j [] := by
  induction es generalizing qs with
  | nil => exact h
  | cons e es ih =>
      refine ih (qStep qs e) ?_
      by_cases hj : j < qs.length
      · by_cases hidx : e.2.2 - 1 = j
        · rw [qStep, hidx, getD_modifyIdx_self _ _ _ _ hj]
          exact List.mem_cons_of_mem _ h
        · rw [qStep, getD_modifyIdx_ne _ _ _ _ _ hidx]
          exact h
      · exfalso
        rw [List.getD_eq_default _ _ (by omega)] at h
        simp at h


theorem queue_fold_mem_add (es : List (String × String × Nat))
    (qs : List (List ImageRecord)) (e : String × String × Nat)
    (he : e ∈ es) (hlen : e.2.2 - 1 < qs.length) :
    (⟨e.1, e.2.1⟩ : ImageRecord) ∈ (es.foldl qStep qs).getD (e.2.2 - 1) [] := by
  induction es generalizing qs with
  | nil => simp at he
  | cons e' es ih =>
      rcases List.mem_cons.1 he with h | h
      · subst h
        refine queue_fold_mem_mono es (qStep qs e) (e.2.2 - 1) _ ?_
        rw [qStep, getD_modifyIdx_self _ _ _ _ hlen]
        exact List.mem_cons_self _ _
      · exact ih (qStep qs e') h (by simpa [qStep, length_modifyIdx] using hlen)

theorem getD_mem {α : Type} (l : List α) (i : Nat) (d : α) (h : i < l.length) :
    l.getD i d ∈ l := by
  induction l generalizing i with
  | nil => simp at h
  | cons x xs ih =>
      cases i with
      | zero => simp
      | succ i =>
          simp only [List.getD_cons_succ]
          exact List.mem_cons_of_mem _ (ih i (by simpa using h))

theorem sum_map_add_of_forall {α : Type} (l : List α) (f g h2 : α → Nat)
    (hfg : ∀ e ∈ l, f e + g e = h2 e) :
    (l.map f).sum + (l.map g).sum = (l.map h2).sum := by
  induction l with
  | nil => simp
  | cons e l ih =>
      have hh := hfg e (List.mem_cons_self _ _)
      have := ih (fun e' he' => hfg e' (List.mem_cons_of_mem _ he'))
      simp only [List.map_cons, List.sum_cons]
      omega

theorem queue_fold_length (es : List (String × String × Nat))
    (qs : List (List ImageRecord)) :
    (es.foldl qStep qs).length = qs.length := by
  induction es generalizing qs with
  | nil => rfl
  | cons e es ih => simp [List.foldl_cons, ih, qStep, length_modifyIdx]

theorem pendInd_empty (p : String) (k : Nat) : pendInd emptySession p k = 0 := rfl

theorem pendInd_add_seen (ss : SessionState) (image : ImageRecord) (p : String) (k : Nat) :
    pendInd (add_seen ss image) p k = if p = image.path then 0 else pendInd ss p k := by
  by_cases hp : p = image.path
  · simp [pendInd, add_seen, hp, lookupA_removeA_self]
  · simp [pendInd, add_seen, hp, lookupA_removeA_ne _ _ _ hp]

theorem pendInd_getSession_match (s : ImageSelectionSystem) (uid : String)
    (p : String) (k : Nat) :
    (match lookupA s.sessions uid with
     | some w => pendInd w p k
     | none => 0) = pendInd (get_session_state s uid) p k := by
  cases hl : lookupA s.sessions uid <;> simp [get_session_state, hl, pendInd_empty]

/-- The reachable-state invariant: every pending queue number is in range, every
pending map has unique keys, and for every image path and queue number the
number of queue copies plus the number of sessions pending from that queue is
at most one. -/
def Inv (s : ImageSelectionSystem) : Prop :=
  (∀ e ∈ s.sessions, ∀ pe ∈ e.2.pending_images,
      1 ≤ pe.2.2.1 ∧ pe.2.2.1 ≤ s.queues.length) ∧
  (∀ e ∈ s.sessions, (e.2.pending_images.map Prod.fst).Nodup) ∧
  (∀ (p : String) (k : Nat), 1 ≤ k → k ≤ s.queues.length →
      queueCountR (s.queues.getD (k - 1) []) p + pendingCountAt s p k ≤ 1)

theorem getSession_pending_sound (s : ImageSelectionSystem) (uid : String)
    (h : Inv s) :
    (∀ pe ∈ (get_session_state s uid).pending_images,
        1 ≤ pe.2.2.1 ∧ pe.2.2.1 ≤ s.queues.length) ∧
    ((get_session_state s uid).pending_images.map Prod.fst).Nodup := by
  unfold get_session_state
  cases hl : lookupA s.sessions uid with
  | none => simp [emptySession]
  | some ss =>
      simp only [Option.getD_some]
      exact ⟨h.1 (uid, ss) (lookupA_mem hl), h.2.1 (uid, ss) (lookupA_mem hl)⟩

theorem inv_submit (s : ImageSelectionSystem) (uid p t : String) (h : Inv s) :
    Inv (submit_rating s uid p t) := by
  have hq : (submit_rating s uid p t).queues = s.queues := rfl
  have hs : (submit_rating s uid p t).sessions =
      updateA s.sessions uid (add_seen (get_session_state s uid) ⟨p, t⟩) := rfl
  have hgs := getSession_pending_sound s uid h
  refine ⟨?_, ?_, ?_⟩
  · intro e he pe hpe
    rw [hs] at he
    rw [hq]
    rcases mem_updateA he with he' | he'
    · exact h.1 e he' pe hpe
    · rw [he'] at hpe
      simp only [add_seen] at hpe
      exact hgs.1 pe (mem_removeA hpe)
  · intro e he
    rw [hs] at he
    rcases mem_updateA he with he' | he'
    · exact h.2.1 e he'
    · rw [he']
      simp only [add_seen]
      exact keys_nodup_removeA _ hgs.2
  · intro p' k hk1 hk2
    rw [hq] at hk2 ⊢
    have hsum := sum_map_updateA s.sessions uid
      (add_seen (get_session_state s uid) ⟨p, t⟩) (fun ss => pendInd ss p' k)
    have hsum2 : ((updateA s.sessions uid
          (add_seen (get_session_state s uid) ⟨p, t⟩)).map
            (fun e => pendInd e.2 p' k)).sum +
          pendInd (get_session_state s uid) p' k =
        (s.sessions.map (fun e => pendInd e.2 p' k)).sum +
          pendInd (add_seen (get_session_state s uid) ⟨p, t⟩) p' k := by
      cases hl : lookupA s.sessions uid with
      | none =>
          rw [hl] at hsum
          simpa [get_session_state, hl, pendInd_empty] using hsum
      | some w =>
          rw [hl] at hsum
          simpa [get_session_state, hl] using hsum
    have hnew := pendInd_add_seen (get_session_state s uid) ⟨p, t⟩ p' k
    have hold := h.2.2 p' k hk1 hk2
    have hpc : pendingCountAt (submit_rating s uid p t) p' k =
        ((updateA s.sessions uid
          (add_seen (get_session_state s uid) ⟨p, t⟩)).map
            (fun e => pendInd e.2 p' k)).sum := by
      simp only [pendingCountAt, hs]
    rw [hpc]
    have hpc0 : pendingCountAt s p' k =
        (s.sessions.map (fun e => pendInd e.2 p' k)).sum := rfl
    by_cases hp : p' = (⟨p, t⟩ : ImageRecord).path
    · rw [if_pos hp] at hnew
      omega
    · rw [if_neg hp] at hnew
      omega

theorem inv_reclaim (s : ImageSelectionSystem) (timeout now : Nat) (h : Inv s) :
    Inv (check_timeouts s timeout now) := by
  have hs := check_timeouts_sessions s timeout now
  have hq := check_timeouts_queues s timeout now
  have hlenq : (check_timeouts s timeout now).queues.length = s.queues.length := by
    rw [hq]; exact queue_fold_length _ _
  refine ⟨?_, ?_, ?_⟩
  · intro e he pe hpe
    rw [hs] at he
    rcases List.mem_map.1 he with ⟨e0, he0, heq⟩
    rw [← heq] at hpe
    simp only at hpe
    have hpe0 := pending_fold_subset _ _ _ hpe
    have := h.1 e0 he0 pe hpe0
    rw [hlenq]
    exact this
  · intro e he
    rw [hs] at he
    rcases List.mem_map.1 he with ⟨e0, he0, heq⟩
    rw [← heq]
    exact pending_fold_keys_nodup _ _ (h.2.1 e0 he0)
  · intro p k hk1 hk2
    rw [hlenq] at hk2
    have hJq : ∀ e ∈ (s.sessions.map
        (fun e => timedOutList e.2 timeout now)).flatten, 1 ≤ e.2.2 := by
      intro e he
      rcases List.mem_flatten.1 he with ⟨es, hes, hee⟩
      rcases List.mem_map.1 hes with ⟨e0, he0, heq⟩
      rw [← heq] at hee
      rcases timedOutList_shape e0.2 timeout now e hee with ⟨rec, t0, hmem, _⟩
      exact (h.1 e0 he0 _ hmem).1
    have hqc := queue_fold_count
      ((s.sessions.map (fun e => timedOutList e.2 timeout now)).flatten)
      s.queues p k hk1 (by omega) hJq
    have hpc : pendingCountAt (check_timeouts s timeout now) p k =
        (s.sessions.map (fun e => pendInd (reclaimSess e.2 timeout now) p k)).sum := by
      simp only [pendingCountAt, hs, List.map_map]
      rfl
    have hper : ∀ e ∈ s.sessions,
        pendInd (reclaimSess e.2 timeout now) p k +
          countKeyAt (timedOutList e.2 timeout now) p k = pendInd e.2 p k := by
      intro e he
      refine pendInd_fold _ _ p k (timedOutList_keys_nodup _ _ _ (h.2.1 e he)) ?_
      intro e' he'
      rcases timedOutList_shape e.2 timeout now e' he' with ⟨rec, t0, hmem, _⟩
      exact ⟨rec, t0, mem_lookupA (h.2.1 e he) hmem⟩
    have hsum := sum_map_add_of_forall s.sessions
      (fun e => pendInd (reclaimSess e.2 timeout now) p k)
      (fun e => countKeyAt (timedOutList e.2 timeout now) p k)
      (fun e => pendInd e.2 p k) hper
    have hck : countKeyAt
        ((s.sessions.map (fun e => timedOutList e.2 timeout now)).flatten) p k =
        (s.sessions.map
          (fun e => countKeyAt (timedOutList e.2 timeout now) p k)).sum := by
      rw [countKeyAt_flatten, List.map_map]
      rfl
    have hold := h.2.2 p k hk1 hk2
    have hpc0 : pendingCountAt s p k =
        (s.sessions.map (fun e => pendInd e.2 p k)).sum := rfl
    rw [hq, hqc, hpc]
    omega

theorem inv_assign (s : ImageSelectionSystem) (uid : String) (now : Nat) (h : Inv s) :
    Inv (get_next_image s uid now).1 := by
  have hgs := getSession_pending_sound s uid h
  have hq : (get_next_image s uid now).1.queues =
      (getNextImageAux now 0 (get_session_state s uid) s.queues).2.1 := rfl
  have hsn : (get_next_image s uid now).1.sessions =
      updateA s.sessions uid
        (getNextImageAux now 0 (get_session_state s uid) s.queues).1 := rfl
  have hlen := aux_len now s.queues 0 (get_session_state s uid)
  have hpend := aux_pending now s.queues 0 (get_session_state s uid)
  refine ⟨?_, ?_, ?_⟩
  · intro e he pe hpe
    rw [hsn] at he
    rw [hq, hlen]
    rcases mem_updateA he with he' | he'
    · exact h.1 e he' pe hpe
    · rw [he'] at hpe
      simp only at hpe
      rw [hpend] at hpe
      cases hres : (getNextImageAux now 0 (get_session_state s uid) s.queues).2.2.1 with
      | none =>
          rw [hres] at hpe
          exact hgs.1 pe hpe
      | some r =>
          rw [hres] at hpe
          simp only at hpe
          rcases mem_updateA hpe with hpe' | hpe'
          · exact hgs.1 pe hpe'
          · have hr := aux_range now s.queues 0 (get_session_state s uid) r hres
            rw [hpe']
            simp only
            omega
  · intro e he
    rw [hsn] at he
    rcases mem_updateA he with he' | he'
    · exact h.2.1 e he'
    · rw [he']
      simp only
      rw [hpend]
      cases hres : (getNextImageAux now 0 (get_session_state s uid) s.queues).2.2.1 with
      | none => exact hgs.2
      | some r => exact keys_nodup_updateA _ _ hgs.2
  · intro p k hk1 hk2
    rw [hq, hlen] at hk2
    have hqc := aux_count_at now p s.queues 0 (get_session_state s uid) (k - 1)
    rw [show 0 + (k - 1) + 1 = k from by omega] at hqc
    have hsum := sum_map_updateA s.sessions uid
      (getNextImageAux now 0 (get_session_state s uid) s.queues).1
      (fun ss => pendInd ss p k)
    have hsum2 : ((updateA s.sessions uid
          (getNextImageAux now 0 (get_session_state s uid) s.queues).1).map
            (fun e => pendInd e.2 p k)).sum +
          pendInd (get_session_state s uid) p k =
        (s.sessions.map (fun e => pendInd e.2 p k)).sum +
          pendInd (getNextImageAux now 0 (get_session_state s uid) s.queues).1 p k := by
      cases hl : lookupA s.sessions uid with
      | none =>
          rw [hl] at hsum
          simpa [get_session_state, hl, pendInd_empty] using hsum
      | some w =>
          rw [hl] at hsum
          simpa [get_session_state, hl] using hsum
    have hpc : pendingCountAt (get_next_image s uid now).1 p k =
        ((updateA s.sessions uid
          (getNextImageAux now 0 (get_session_state s uid) s.queues).1).map
            (fun e => pendInd e.2 p k)).sum := by
      simp only [pendingCountAt, hsn]
    have hpc0 : pendingCountAt s p k =
        (s.sessions.map (fun e => pendInd e.2 p k)).sum := rfl
    have hold := h.2.2 p k hk1 hk2
    have hqgoal : queueCountR ((get_next_image s uid now).1.queues.getD (k - 1) []) p =
        queueCountR
          ((getNextImageAux now 0 (get_session_state s uid) s.queues).2.1.getD (k - 1) []) p := by
      rw [hq]
    rw [hqgoal, hpc]
    cases hres : (getNextImageAux now 0 (get_session_state s uid) s.queues).2.2.1 with
    | none =>
        rw [hres] at hqc
        simp only [resAt] at hqc
        have hnew : pendInd
            (getNextImageAux now 0 (get_session_state s uid) s.queues).1 p k =
            pendInd (get_session_state s uid) p k := by
          unfold pendInd
          rw [hpend, hres]
        omega
    | some r =>
        rw [hres] at hqc
        by_cases hp : r.1.path = p
        · by_cases hrk : r.2 = k
          · have hqc2 : queueCountR
                ((getNextImageAux now 0 (get_session_state s uid) s.queues).2.1.getD
                  (k - 1) []) p + 1 = queueCountR (s.queues.getD (k - 1) []) p := by
              simpa [resAt, hp, hrk] using hqc
            have hnew : pendInd
                (getNextImageAux now 0 (get_session_state s uid) s.queues).1 p k = 1 := by
              unfold pendInd
              rw [hpend, hres]
              simp only
              rw [← hp, lookupA_updateA_self]
              simp [hrk]
            omega
          · have hqc2 : queueCountR
                ((getNextImageAux now 0 (get_session_state s uid) s.queues).2.1.getD
                  (k - 1) []) p = queueCountR (s.queues.getD (k - 1) []) p := by
              simpa [resAt, hrk] using hqc
            have hnew : pendInd
                (getNextImageAux now 0 (get_session_state s uid) s.queues).1 p k = 0 := by
              unfold pendInd
              rw [hpend, hres]
              simp only
              rw [← hp, lookupA_updateA_self]
              simp [hrk]
            omega
        · have hqc2 : queueCountR
              ((getNextImageAux now 0 (get_session_state s uid) s.queues).2.1.getD
                (k - 1) []) p = queueCountR (s.queues.getD (k - 1) []) p := by
            simpa [resAt, hp] using hqc
          have hnew : pendInd
              (getNextImageAux now 0 (get_session_state s uid) s.queues).1 p k =
              pendInd (get_session_state s uid) p k := by
            unfold pendInd
            rw [hpend, hres]
            simp only
            rw [lookupA_updateA_ne _ _ _ _ (fun hc => hp hc.symm)]
          omega

theorem inv_applyOp (s : ImageSelectionSystem) (op : Op) (h : Inv s) :
    Inv (applyOp s op) := by
  cases op with
  | assign uid now => exact inv_assign s uid now h
  | confirm uid p t => exact inv_submit s uid p t h
  | reclaim timeout now => exact inv_reclaim s timeout now h

theorem inv_runOps (s : ImageSelectionSystem) (ops : List Op) (h : Inv s) :
    Inv (runOps s ops) := by
  induction ops generalizing s with
  | nil => exact h
  | cons op ops ih => exact ih (applyOp s op) (inv_applyOp s op h)

theorem inv_mkInitial (catalog : List (String × String)) (qs : List (List ImageRecord))
    (hperm : ∀ q ∈ qs, q.Perm (loadImages catalog))
    (hnd : ((loadImages catalog).map (fun i => i.path)).Nodup) :
    Inv (mkInitial catalog qs) := by
  refine ⟨?_, ?_, ?_⟩
  · intro e he
    simp [mkInitial] at he
  · intro e he
    simp [mkInitial] at he
  · intro p k hk1 hk2
    have hpc : pendingCountAt (mkInitial catalog qs) p k = 0 := by
      simp [pendingCountAt, mkInitial]
    rw [hpc]
    have hmem : (mkInitial catalog qs).queues.getD (k - 1) [] ∈ qs := by
      have : (mkInitial catalog qs).queues = qs := rfl
      rw [this]
      exact getD_mem qs (k - 1) [] (by simp [mkInitial] at hk2; omega)
    have := queueCountR_perm (hperm _ hmem) p
    have hle := queueCountR_le_one hnd (q := loadImages catalog) (p := p)
    omega

theorem inv_pendingCountAt_le_one (s : ImageSelectionSystem) (h : Inv s)
    (p : String) (k : Nat) : pendingCountAt s p k ≤ 1 := by
  by_cases hk : 1 ≤ k ∧ k ≤ s.queues.length
  · have := h.2.2 p k hk.1 hk.2
    omega
  · have hz : ∀ x ∈ s.sessions.map (fun e => pendInd e.2 p k), x = 0 := by
      intro x hx
      rcases List.mem_map.1 hx with ⟨e, he, heq⟩
      rw [← heq]
      unfold pendInd
      cases hl : lookupA e.2.pending_images p with
      | none => rfl
      | some v =>
          have hr : 1 ≤ v.2.1 ∧ v.2.1 ≤ s.queues.length :=
            h.1 e he (p, v) (lookupA_mem hl)
          have hvne : v.2.1 ≠ k := by
            by_cases hk1 : 1 ≤ k
            · have hk2 : ¬ k ≤ s.queues.length := fun hle => hk ⟨hk1, hle⟩
              omega
            · omega
          simp [hvne]
    have : pendingCountAt s p k = 0 := List.sum_eq_zero hz
    omega

theorem elem_le_map_sum {α : Type} (l : List α) (f : α → Nat) (a : α) (ha : a ∈ l) :
    f a ≤ (l.map f).sum := by
  induction l with
  | nil => simp at ha
  | cons x xs ih =>
      rcases List.mem_cons.1 ha with h1 | h1
      · subst h1
        simp only [List.map_cons, List.sum_cons]
        omega
      · have := ih h1
        simp only [List.map_cons, List.sum_cons]
        omega

theorem two_mem_map_sum {α : Type} (l : List α) (f : α → Nat) (a b : α)
    (ha : a ∈ l) (hb : b ∈ l) (hne : a ≠ b) : f a + f b ≤ (l.map f).sum := by
  induction l with
  | nil => simp at ha
  | cons x xs ih =>
      simp only [List.map_cons, List.sum_cons]
      rcases List.mem_cons.1 ha with h1 | h1
      · subst h1
        have hb' : b ∈ xs := by
          rcases List.mem_cons.1 hb with h2 | h2
          · exact absurd h2.symm hne
          · exact h2
        have := elem_le_map_sum xs f b hb'
        omega
      · rcases List.mem_cons.1 hb with h2 | h2
        · subst h2
          have := elem_le_map_sum xs f a h1
          omega
        · have := ih h1 h2
          omega

theorem pendInd_pair_le (s : ImageSelectionSystem) (p : String) (k : Nat)
    (uid1 uid2 : String) (s1 s2 : SessionState)
    (h1 : lookupA s.sessions uid1 = some s1) (h2 : lookupA s.sessions uid2 = some s2)
    (hne : uid1 ≠ uid2) :
    pendInd s1 p k + pendInd s2 p k ≤ pendingCountAt s p k := by
  have e1 : (uid1, s1) ∈ s.sessions := lookupA_mem h1
  have e2 : (uid2, s2) ∈ s.sessions := lookupA_mem h2
  have hne' : (uid1, s1) ≠ (uid2, s2) := fun hc => hne (congrArg Prod.fst hc)
  exact two_mem_map_sum s.sessions (fun e => pendInd e.2 p k) _ _ e1 e2 hne'

theorem mem_setAdd_self (l : List String) (x : String) : x ∈ setAdd l x := by
  by_cases h : x ∈ l <;> simp [setAdd, h]

theorem sumCountR_le (qs : List (List ImageRecord)) (p : String)
    (h : ∀ q ∈ qs, queueCountR q p ≤ 1) : sumCountR qs p ≤ qs.length := by
  induction qs with
  | nil => simp [sumCountR]
  | cons q qs ih =>
      have h1 := h q (List.mem_cons_self _ _)
      have h2 := ih (fun q' hq' => h q' (List.mem_cons_of_mem _ hq'))
      simp only [sumCountR, List.map_cons, List.sum_cons, List.length_cons] at h2 ⊢
      omega

theorem assignedPath_eq_optCountA (s : ImageSelectionSystem) (uid : String)
    (now : Nat) (p : String) :
    assignedPath s (Op.assign uid now) p = optCountA (get_next_image s uid now).2 p := rfl

theorem assignsAlong_le (s : ImageSelectionSystem) (p : String) (ops : List Op)
    (hops : ∀ op ∈ ops, op.isReclaim = false) :
    assignsAlong s p ops ≤ sumCountR s.queues p := by
  induction ops generalizing s with
  | nil => simp [assignsAlong]
  | cons op ops ih =>
      have hop := hops op (List.mem_cons_self _ _)
      have htail := fun s' => ih s' (fun op' hop' => hops op' (List.mem_cons_of_mem _ hop'))
      cases op with
      | assign uid now =>
          have hcons := aux_count now p s.queues 0 (get_session_state s uid)
          have hq : (applyOp s (Op.assign uid now)).queues =
              (getNextImageAux now 0 (get_session_state s uid) s.queues).2.1 := rfl
          have hres : (get_next_image s uid now).2 =
              (getNextImageAux now 0 (get_session_state s uid) s.queues).2.2.1 := rfl
          have ht := htail (applyOp s (Op.assign uid now))
          simp only [assignsAlong, assignedPath_eq_optCountA]
          rw [hres]
          rw [hq] at ht
          omega
      | confirm uid p' t =>
          have ht := htail (applyOp s (Op.confirm uid p' t))
          have hq : (applyOp s (Op.confirm uid p' t)).queues = s.queues := rfl
          rw [hq] at ht
          simp only [assignsAlong, assignedPath]
          omega
      | reclaim timeout now => simp [Op.isReclaim] at hop

/-- Concrete image with path `pa`, poem title `A`, used to evaluate the code. -/
def imgA : ImageRecord := ⟨"pa", "A"⟩

/-- Concrete image with path `pb`, poem title `B`. -/
def imgB : ImageRecord := ⟨"pb", "B"⟩

/-- Six queues each holding the single catalog image, as `__init__` builds for
a one-image catalog. -/
def qsOne : List (List ImageRecord) := [[imgA], [imgA], [imgA], [imgA], [imgA], [imgA]]

/-- A state in which `imgB` (5 ratings) precedes `imgA` (0 ratings) in Q1. -/
def sMin : ImageSelectionSystem :=
  { queues := [[imgB, imgA], [], [], [], [], []], sessions := [],
    ratings := [("pa", 0), ("pb", 5)], all_images := [imgA, imgB] }

/-- A state in which user `u` has rated `imgA` (title and path seen) and every
queue still starts with `imgA`; `imgB` carries an unseen title. -/
def sExh : ImageSelectionSystem :=
  { queues := [[imgA, imgB], [imgA, imgB], [imgA, imgB], [imgA, imgB],
               [imgA, imgB], [imgA, imgB]],
    sessions := [("u", ⟨["A"], ["pa"], []⟩)],
    ratings := [("pa", 1), ("pb", 0)], all_images := [imgA, imgB] }

/-- A state in which the Q1 entry for `imgA` is stale in the spec's sense: it
was pushed at rating count 0 and the ledger now records 1; user `u` has seen
title `A` but not path `pa`. -/
def sStale : ImageSelectionSystem :=
  { queues := [[imgA, imgB], [], [], [], [], []],
    sessions := [("u", ⟨["A"], [], []⟩)],
    ratings := [("pa", 1), ("pb", 0)], all_images := [imgA, imgB] }

/-- A durable rating store recording 5 ratings for path `pa`. -/
def storeFive : List (String × Nat) := [("pa", 5)]

/-- The engine state freshly initialized from the one-image catalog. -/
def sFresh : ImageSelectionSystem := mkInitial [("pa", "A")] qsOne

/-- Claim C6: the rating-ledger count of an image never decreases under any
engine operation; `submit_rating` on a path increments exactly that path's
count by exactly 1; `get_next_image` and `check_timeouts` leave the whole
ledger unchanged. -/
theorem spec_c6_monotonic_counts :
    ∀ (s : ImageSelectionSystem) (p : String),
      (∀ op : Op, ratingsCount s p ≤ ratingsCount (applyOp s op) p) ∧
      (∀ uid t p', ratingsCount (submit_rating s uid p t) p' =
        if p' = p then ratingsCount s p' + 1 else ratingsCount s p') ∧
      (∀ uid now, (get_next_image s uid now).1.ratings = s.ratings) ∧
      (∀ timeout now, (check_timeouts s timeout now).ratings = s.ratings) := by
  intro s p
  refine ⟨?_, ?_, ?_, ?_⟩
  · intro op
    cases op with
    | assign uid now =>
        have : ratingsCount (applyOp s (Op.assign uid now)) p = ratingsCount s p := by
          unfold ratingsCount
          rw [show (applyOp s (Op.assign uid now)).ratings = s.ratings from rfl]
        omega
    | confirm uid p' t =>
        have happ : applyOp s (Op.confirm uid p' t) = submit_rating s uid p' t := rfl
        rw [happ]
        have := submit_rating_count s uid p' t p
        by_cases hp : p = p'
        · subst hp
          simp at this
          omega
        · simp [hp] at this
          omega
    | reclaim timeout now =>
        have : ratingsCount (applyOp s (Op.reclaim timeout now)) p = ratingsCount s p := by
          unfold ratingsCount
          rw [show (applyOp s (Op.reclaim timeout now)).ratings = s.ratings from rfl]
        omega
  · intro uid t p'
    exact submit_rating_count s uid p t p'
  · intro uid now
    rfl
  · intro timeout now
    rfl

/-- Claim C9: every `get_next_image` call makes at most `2 × totalSize` pop
attempts (the code in fact stays within `1 × totalSize`: each queue's loop is
bounded by that queue's length at call start). -/
theorem spec_c9_pops_bound (s : ImageSelectionSystem) (uid : String) (now : Nat) :
    assignPops s uid now ≤ 2 * totalSize s := by
  have h := aux_pops now s.queues 0 (get_session_state s uid)
  unfold assignPops totalSize
  omega

/-- Claim C3, counterexample: with the ledger count of `pa` at 1 (the Q1 entry
for `imgA` was pushed at init when the count was 0, so it is stale in the
spec's sense), `get_next_image` does not discard the popped stale entry: the
Scenario-B branch recycles it to the back of Q1, so `imgA` is still in Q1
after the call.  The code never compares popped entries with the ledger. -/
theorem spec_c3_counterexample :
    ratingsCount sStale imgA.path = 1 ∧
    (get_next_image sStale "u" 0).2 = some (imgB, 1) ∧
    imgA ∈ ((get_next_image sStale "u" 0).1.queues.getD 0 []) := by decide

/-- Claim C3, amended: `get_next_image` never consults the rating ledger at
all.  Its returned value is unchanged, and its state effect commutes with any
replacement of the ledger; popped conflicting entries are reinserted (to the
back on a title-only conflict, to the front on a full conflict) rather than
discarded against the ledger. -/
theorem spec_c3_amended (s : ImageSelectionSystem) (uid : String) (now : Nat)
    (r : List (String × Nat)) :
    (get_next_image { s with ratings := r } uid now).2 = (get_next_image s uid now).2 ∧
    (get_next_image { s with ratings := r } uid now).1 =
      { (get_next_image s uid now).1 with ratings := r } := ⟨rfl, rfl⟩

/-- Claim C4, counterexample: initialization ignores the durable rating store.
With a store recording 5 ratings for `pa`, `__init__` still sets the ledger
entry for `pa` to 0, so counts do not survive a restart through the engine. -/
theorem spec_c4_counterexample :
    (lookupA storeFive "pa").getD 0 = 5 ∧
    ratingsCount (mkInitial [("pa", "A")] qsOne) "pa" = 0 ∧
    (0 : Nat) ≠ 5 := by decide

/-- Claim C4, amended: initialization sets the rating-ledger entry of every
loaded image to 0 unconditionally; the durable store is never read. -/
theorem spec_c4_amended (catalog : List (String × String))
    (qs : List (List ImageRecord)) (p : String)
    (h : p ∈ (loadImages catalog).map (fun i => i.path)) :
    lookupA (mkInitial catalog qs).ratings p = some 0 := by
  have hgen : ∀ (l : List ImageRecord), p ∈ l.map (fun i => i.path) →
      lookupA (l.map (fun image => (image.path, (0 : Nat)))) p = some 0 := by
    intro l
    induction l with
    | nil => intro hc; simp at hc
    | cons i l ih =>
        intro hmem
        by_cases hip : i.path = p
        · simp [lookupA_cons, hip]
        · simp only [List.map_cons, List.mem_cons] at hmem
          rcases hmem with hmem | hmem
          · exact absurd hmem.symm hip
          · simp [lookupA_cons, hip, ih hmem]
  exact hgen (loadImages catalog) h

/-- Claim C4, amended, witness at the one-image catalog. -/
theorem spec_c4_amended_witness :
    lookupA (mkInitial [("pa", "A")] qsOne).ratings "pa" = some 0 :=
  spec_c4_amended [("pa", "A")] qsOne "pa" (by decide)

/-- Claim C5, counterexample: confirming an image that is not pending for the
user raises no error and is not ignored: on a fresh state where `u` has no
pending entry for `pa`, `submit_rating` silently marks it seen and increments
the ledger exactly as a legitimate confirm would. -/
theorem spec_c5_counterexample :
    lookupA (get_session_state sFresh "u").pending_images "pa" = none ∧
    ratingsCount (submit_rating sFresh "u" "pa" "A") "pa" = 1 ∧
    "A" ∈ (get_session_state (submit_rating sFresh "u" "pa" "A") "u").seen_titles := by
  decide

/-- Claim C5, amended: `submit_rating` performs no pending-membership check:
for every state, user and `(path, title)` pair — pending or not — it adds the
title and path to the seen sets, removes any pending entry for the path, and
increments the ledger count by exactly 1. -/
theorem spec_c5_amended (s : ImageSelectionSystem) (uid p t : String) :
    ratingsCount (submit_rating s uid p t) p = ratingsCount s p + 1 ∧
    t ∈ (get_session_state (submit_rating s uid p t) uid).seen_titles ∧
    p ∈ (get_session_state (submit_rating s uid p t) uid).seen_paths ∧
    lookupA (get_session_state (submit_rating s uid p t) uid).pending_images p = none := by
  have hsess : get_session_state (submit_rating s uid p t) uid =
      add_seen (get_session_state s uid) ⟨p, t⟩ := by
    unfold get_session_state
    rw [submit_rating_sessions, lookupA_updateA_self]
    rfl
  refine ⟨?_, ?_, ?_, ?_⟩
  · have := submit_rating_count s uid p t p
    simpa using this
  · rw [hsess]
    exact mem_setAdd_self _ _
  · rw [hsess]
    exact mem_setAdd_self _ _
  · rw [hsess]
    exact lookupA_removeA_self _ _

/-- Claim C1, counterexample: (i) a successful assign need not return an image
of minimal rating count among the unseen ones — in `sMin`, Q1 serves `imgB`
(count 5) although `imgA` (count 0) is unseen and available; (ii) Exhaustion
(`none`) is not returned exactly when no unseen-title image exists — in
`sExh`, every queue head is a fully-seen image, Scenario C breaks out of each
queue, and the call returns `none` although `imgB` with unseen title `B` sits
in every queue. -/
theorem spec_c1_counterexample :
    ((get_next_image sMin "u" 0).2 = some (imgB, 1) ∧
      imgA ∈ sMin.all_images ∧
      imgA.poem_title ∉ (get_session_state sMin "u").seen_titles ∧
      ratingsCount sMin imgA.path < ratingsCount sMin imgB.path) ∧
    ((get_next_image sExh "u" 0).2 = none ∧
      imgB ∈ sExh.all_images ∧
      imgB ∈ sExh.queues.getD 0 [] ∧
      imgB.poem_title ∉ (get_session_state sExh "u").seen_titles) := by decide

/-- Claim C1, amended: a successful `get_next_image` returns an image whose
poem title is not in the user's seen-set and records it as pending for that
user under the given timestamp and queue number; the image is the first
eligible one in queue-scan order, not the minimal-rating-count one, and a
`none` return means all queues were exhausted or blocked, which can happen
even when unseen-title images remain. -/
theorem spec_c1_amended (s : ImageSelectionSystem) (uid : String) (now : Nat)
    (image : ImageRecord) (k : Nat)
    (h : (get_next_image s uid now).2 = some (image, k)) :
    image.poem_title ∉ (get_session_state s uid).seen_titles ∧
    lookupA (get_session_state (get_next_image s uid now).1 uid).pending_images
      image.path = some (image, k, now) := by
  have h' : (getNextImageAux now 0 (get_session_state s uid) s.queues).2.2.1 =
      some (image, k) := h
  constructor
  · exact aux_success_unseen now s.queues 0 (get_session_state s uid) (image, k) h'
  · have hpend := aux_pending now s.queues 0 (get_session_state s uid)
    have hsess : get_session_state (get_next_image s uid now).1 uid =
        (getNextImageAux now 0 (get_session_state s uid) s.queues).1 := by
      unfold get_session_state
      rw [show (get_next_image s uid now).1.sessions =
            updateA s.sessions uid
              (getNextImageAux now 0 (get_session_state s uid) s.queues).1 from rfl,
          lookupA_updateA_self]
      rfl
    rw [hsess]
    unfold pendInd at hpend
    rw [hpend, h']
    simp only
    exact lookupA_updateA_self _ _ _

/-- Claim C1, amended, witness: in `sMin` the call returns `imgB` from Q1, its
title is unseen, and it is recorded pending. -/
theorem spec_c1_amended_witness :
    imgB.poem_title ∉ (get_session_state sMin "u").seen_titles ∧
    lookupA (get_session_state (get_next_image sMin "u" 0).1 "u").pending_images
      imgB.path = some (imgB, 1, 0) :=
  spec_c1_amended sMin "u" 0 imgB 1 (by decide)

/-- The two-assign run on the one-image catalog: `u1` takes `imgA` from Q1,
then `u2` takes the copy of `imgA` from Q2. -/
def sTwo : ImageSelectionSystem :=
  runOps (mkInitial [("pa", "A")] qsOne) [Op.assign "u1" 0, Op.assign "u2" 0]

/-- Claim C2, counterexample: two distinct users can be simultaneously pending
on the same image identifier — each of the six queues holds its own copy of
every image, so `u1` (from Q1) and `u2` (from Q2) are both pending on `pa`
after two assigns reachable from initialization. -/
theorem spec_c2_counterexample :
    ("u1" : String) ≠ "u2" ∧
    lookupA (get_session_state sTwo "u1").pending_images "pa" = some (imgA, 1, 0) ∧
    lookupA (get_session_state sTwo "u2").pending_images "pa" = some (imgA, 2, 0) := by
  decide

/-- Claim C2, amended: in every state reachable from initialization by any
sequence of assign, confirm and timeout-reclamation operations, at most one
session is pending on a given image identifier from a given queue number
(distinct users can hold the same image only via different queues, at most
six in total); equivalently two sessions pending on the same
`(image, queue_number)` pair belong to the same user id. -/
theorem spec_c2_amended (catalog : List (String × String))
    (qs : List (List ImageRecord)) (ops : List Op) (p : String) (k : Nat)
    (hperm : ∀ q ∈ qs, q.Perm (loadImages catalog))
    (hnd : ((loadImages catalog).map (fun i => i.path)).Nodup) :
    pendingCountAt (runOps (mkInitial catalog qs) ops) p k ≤ 1 ∧
    (∀ uid1 uid2 s1 s2,
      lookupA (runOps (mkInitial catalog qs) ops).sessions uid1 = some s1 →
      lookupA (runOps (mkInitial catalog qs) ops).sessions uid2 = some s2 →
      pendInd s1 p k = 1 → pendInd s2 p k = 1 → uid1 = uid2) := by
  have hinv := inv_runOps (mkInitial catalog qs) ops (inv_mkInitial catalog qs hperm hnd)
  have hle := inv_pendingCountAt_le_one _ hinv p k
  refine ⟨hle, ?_⟩
  intro uid1 uid2 s1 s2 h1 h2 hp1 hp2
  by_contra hne
  have := pendInd_pair_le (runOps (mkInitial catalog qs) ops) p k uid1 uid2 s1 s2 h1 h2 hne
  omega

/-- Claim C2, amended, witness: after the two-assign run both pending counts
per `(path, queue)` pair stay at most 1. -/
theorem spec_c2_amended_witness :
    pendingCountAt sTwo "pa" 1 ≤ 1 :=
  (spec_c2_amended [("pa", "A")] qsOne [Op.assign "u1" 0, Op.assign "u2" 0]
    "pa" 1 (by decide) (by decide)).1

/-- Claim C7: if the user's seen-title set equals the set of poem titles of
the loaded catalog images and every queue entry is drawn from the catalog (as
all reachable states satisfy), `get_next_image` returns the exhaustion signal
`none`: Scenario A can never fire. -/
theorem spec_c7_exhaustion (s : ImageSelectionSystem) (uid : String) (now : Nat)
    (hqueues : ∀ q ∈ s.queues, ∀ image ∈ q,
      image.poem_title ∈ s.all_images.map (fun i => i.poem_title))
    (_hseen1 : ∀ t ∈ (get_session_state s uid).seen_titles,
      t ∈ s.all_images.map (fun i => i.poem_title))
    (hseen2 : ∀ t ∈ s.all_images.map (fun i => i.poem_title),
      t ∈ (get_session_state s uid).seen_titles) :
    (get_next_image s uid now).2 = none := by
  have : (get_next_image s uid now).2 =
      (getNextImageAux now 0 (get_session_state s uid) s.queues).2.2.1 := rfl
  rw [this]
  refine aux_all_seen now s.queues 0 (get_session_state s uid) ?_
  intro q hq image himg
  exact hseen2 image.poem_title (hqueues q hq image himg)

/-- A state where user `u` has seen the only catalog title `A`. -/
def sSeenAll : ImageSelectionSystem :=
  { queues := [[imgA], [], [], [], [], []],
    sessions := [("u", ⟨["A"], ["pa"], []⟩)],
    ratings := [("pa", 1)], all_images := [imgA] }

/-- Claim C7, witness: with the full title set seen, assign returns `none`. -/
theorem spec_c7_exhaustion_witness : (get_next_image sSeenAll "u" 0).2 = none :=
  spec_c7_exhaustion sSeenAll "u" 0 (by decide) (by decide) (by decide)

/-- Claim C8: for a pending entry of user `uid` older than the timeout,
`check_timeouts` removes it from the user's pending map, pushes the image back
into its original queue, leaves the whole rating ledger unchanged (priority
not incremented), clears the path from the user's `seen_paths`, and the image
is assignable to the user again: whenever it ends up heading the first
nonempty queue and its poem title is still unseen, the next
`get_next_image` call returns exactly it with its original queue number. -/
theorem spec_c8_timeout_reclaim (s : ImageSelectionSystem) (uid p : String)
    (image : ImageRecord) (k t0 timeout now : Nat)
    (hpend : lookupA (get_session_state s uid).pending_images p = some (image, k, t0))
    (hpath : image.path = p)
    (htime : timeout < now - t0)
    (hk1 : 1 ≤ k) (hk2 : k ≤ s.queues.length) :
    lookupA (get_session_state (check_timeouts s timeout now) uid).pending_images p
      = none ∧
    image ∈ ((check_timeouts s timeout now).queues.getD (k - 1) []) ∧
    (check_timeouts s timeout now).ratings = s.ratings ∧
    p ∉ (get_session_state (check_timeouts s timeout now) uid).seen_paths ∧
    (∀ now2,
      (∀ j, j < k - 1 → (check_timeouts s timeout now).queues.getD j [] = []) →
      ((check_timeouts s timeout now).queues.getD (k - 1) []).head? = some image →
      image.poem_title ∉ (get_session_state (check_timeouts s timeout now) uid).seen_titles →
      (get_next_image (check_timeouts s timeout now) uid now2).2 = some (image, k)) := by
  subst hpath
  -- locate the stored session
  have hsessU : ∃ sessU, lookupA s.sessions uid = some sessU ∧
      get_session_state s uid = sessU := by
    cases hl : lookupA s.sessions uid with
    | none =>
        exfalso
        unfold get_session_state at hpend
        rw [hl] at hpend
        simp [emptySession, lookupA] at hpend
    | some sessU => exact ⟨sessU, rfl, by unfold get_session_state; rw [hl]; rfl⟩
  rcases hsessU with ⟨sessU, hlu, hgsU⟩
  rw [hgsU] at hpend
  have hmemP : (image.path, (image, k, t0)) ∈ sessU.pending_images := lookupA_mem hpend
  have hTO : (image.path, image.poem_title, k) ∈ timedOutList sessU timeout now := by
    simp only [timedOutList, List.mem_map, List.mem_filter]
    exact ⟨(image.path, (image, k, t0)), ⟨hmemP, by simpa using htime⟩, rfl⟩
  have hkey : image.path ∈ (timedOutList sessU timeout now).map (fun e => e.1) := by
    rcases List.mem_map.2 ⟨(image.path, image.poem_title, k), hTO, rfl⟩ with h
    exact h
  have hmv : lookupA (s.sessions.map (fun e => (e.1, reclaimSess e.2 timeout now))) uid
      = (lookupA s.sessions uid).map (fun ss => reclaimSess ss timeout now) :=
    lookupA_map_val s.sessions (fun ss => reclaimSess ss timeout now) uid
  have hsess' : get_session_state (check_timeouts s timeout now) uid =
      reclaimSess sessU timeout now := by
    unfold get_session_state
    rw [check_timeouts_sessions, hmv, hlu]
    rfl
  have hlen' : (check_timeouts s timeout now).queues.length = s.queues.length := by
    rw [check_timeouts_queues]
    exact queue_fold_length _ _
  refine ⟨?_, ?_, rfl, ?_, ?_⟩
  · rw [hsess']
    unfold reclaimSess
    rw [lookup_pending_fold]
    simp [hkey]
  · rw [check_timeouts_queues]
    have hmemJ : (image.path, image.poem_title, k) ∈
        (s.sessions.map (fun e => timedOutList e.2 timeout now)).flatten := by
      refine List.mem_flatten.2 ⟨timedOutList sessU timeout now, ?_, hTO⟩
      exact List.mem_map.2 ⟨(uid, sessU), lookupA_mem hlu, rfl⟩
    have := queue_fold_mem_add
      ((s.sessions.map (fun e => timedOutList e.2 timeout now)).flatten)
      s.queues (image.path, image.poem_title, k) hmemJ (by simp only; omega)
    simpa using this
  · rw [hsess']
    unfold reclaimSess
    exact seen_paths_fold_removed _ _ _ hkey
  · intro now2 hempty hhead hunseen
    have hfirst := aux_first now2 (check_timeouts s timeout now).queues 0
      (get_session_state (check_timeouts s timeout now) uid) (k - 1) image
      hempty (by omega) hhead hunseen
    have : (get_next_image (check_timeouts s timeout now) uid now2).2 =
        (getNextImageAux now2 0
          (get_session_state (check_timeouts s timeout now) uid)
          (check_timeouts s timeout now).queues).2.2.1 := rfl
    have harith : 0 + (k - 1) + 1 = k := by omega
    rw [harith] at hfirst
    rw [this]
    exact hfirst

/-- The timed-out state: user `u` has `p1` pending from Q1 since time 0. -/
def sTimed : ImageSelectionSystem :=
  { queues := [[], [], [], [], [], []],
    sessions := [("u", ⟨[], ["p1"], [("p1", (⟨"p1", "T1"⟩, 1, 0))]⟩)],
    ratings := [("p1", 0)], all_images := [⟨"p1", "T1"⟩] }

/-- Claim C8, witness: reclaiming at time 11 with a 10-unit timeout removes
the pending entry, returns the image to the head of Q1 with the ledger
unchanged, clears the path, and the next assign hands the image back. -/
theorem spec_c8_timeout_reclaim_witness :
    lookupA (get_session_state (check_timeouts sTimed 10 11) "u").pending_images "p1"
      = none ∧
    (⟨"p1", "T1"⟩ : ImageRecord) ∈ ((check_timeouts sTimed 10 11).queues.getD 0 []) ∧
    (check_timeouts sTimed 10 11).ratings = sTimed.ratings ∧
    "p1" ∉ (get_session_state (check_timeouts sTimed 10 11) "u").seen_paths ∧
    (get_next_image (check_timeouts sTimed 10 11) "u" 20).2 = some (⟨"p1", "T1"⟩, 1) := by
  have h := spec_c8_timeout_reclaim sTimed "u" "p1" ⟨"p1", "T1"⟩ 1 0 10 11
    (by decide) (by decide) (by decide) (by decide) (by decide)
  exact ⟨h.1, h.2.1, h.2.2.1, h.2.2.2.1,
    h.2.2.2.2 20 (by decide) (by decide) (by decide)⟩

/-- Claim C10: at initialization each of the six queues contains exactly one
entry per loaded catalog image, and in any run of assign and confirm
operations (no timeout reclamation) the total number of successful assigns of
any one image path across all users is at most 6: assigns consume queue
copies, Scenario B/C reinsertions preserve them, and confirm never reinserts. -/
theorem spec_c10_at_most_six (catalog : List (String × String))
    (qs : List (List ImageRecord)) (ops : List Op) (p : String)
    (hlen : qs.length = 6)
    (hperm : ∀ q ∈ qs, q.Perm (loadImages catalog))
    (hnd : ((loadImages catalog).map (fun i => i.path)).Nodup)
    (hops : ∀ op ∈ ops, op.isReclaim = false) :
    (∀ q ∈ qs, ∀ image ∈ loadImages catalog, queueCount q image.path = 1) ∧
    assignsAlong (mkInitial catalog qs) p ops ≤ 6 := by
  constructor
  · intro q hq image himg
    rw [queueCount_eq_queueCountR, queueCountR_perm (hperm q hq)]
    exact queueCountR_eq_one hnd (List.mem_map_of_mem _ himg)
  · have hb := assignsAlong_le (mkInitial catalog qs) p ops hops
    have hq0 : (mkInitial catalog qs).queues = qs := rfl
    have hle : sumCountR qs p ≤ qs.length :=
      sumCountR_le qs p (fun q hq => by
        rw [queueCountR_perm (hperm q hq)]
        exact queueCountR_le_one hnd)
    rw [hq0] at hb
    omega

/-- Claim C10, witness: on the one-image catalog with an assign-confirm run,
the initial per-queue count is exactly 1 and at most six assigns of `pa` are
possible. -/
theorem spec_c10_at_most_six_witness :
    queueCount [imgA] imgA.path = 1 ∧
    assignsAlong (mkInitial [("pa", "A")] qsOne) "pa"
      [Op.assign "u1" 0, Op.confirm "u1" "pa" "A"] ≤ 6 := by
  have h := spec_c10_at_most_six [("pa", "A")] qsOne
    [Op.assign "u1" 0, Op.confirm "u1" "pa" "A"] "pa"
    (by decide) (by decide) (by decide) (by decide)
  exact ⟨h.1 [imgA] (by decide) imgA (by decide), h.2⟩

end ImageVoting
